import Mathlib

/-! Dense vector / matrix arithmetic: embedding and verified properties.

Shallow embedding of `src/matrix.c`, `src/vector.c`, `src/stats.c` and `src/utils.c`.

* A `double` is read as an element of a linearly ordered field `α` (the
  real-number reading of the arithmetic; instantiate `α := ℚ` to compute).
  NaN, infinities and rounding are not part of this reading.  The functions
  of the transpose-and-compare path also run on `ExtDouble`, which adds the
  infinities and NaN to the finite values.
* A `size_t` is a natural number; products and sums computed in `size_t`
  are reduced modulo `SIZE_MOD`.
* A pointer that may be `NULL` is an `Option`; `none` is the absent result.
* A heap buffer is a `List α`; `load` and `List.set` are the element read and
  write.  An access outside the buffer is undefined in C; here such a read
  gives `0` and such a write does nothing, and the theorems about buffer
  contents keep every access inside the buffers through their hypotheses.
* `calloc` always hands out the requested buffer (allocation succeeding).
* `sqrt` comes from libm and is a parameter of the functions that call it.
-/

namespace NumLib

set_option linter.unusedSectionVars false
set_option linter.unusedVariables false

variable {α : Type} [LinearOrderedField α]

/-! ## Machine model -/

/-- Number of values of the C type `size_t` on the 64-bit target. -/
def SIZE_MOD : Nat := 2 ^ 64

/-- Multiplication of two `size_t` values. -/
def size_mul (a b : Nat) : Nat := (a * b) % SIZE_MOD

/-- Addition of two `size_t` values. -/
def size_add (a b : Nat) : Nat := (a + b) % SIZE_MOD

/-- The read `buf[k]`. -/
def load {α : Type} [Zero α] (buf : List α) (k : Nat) : α := buf.getD k 0

/-- The loop `for (size_t i = 0; i < n; i++) body`, threading the state the body updates. -/
def for_range {σ : Type} (n : Nat) (body : Nat → σ → σ) (init : σ) : σ :=
  (List.range n).foldl (fun s i => body i s) init

/-- The call `calloc(nmemb, sizeof(double))` when the allocator succeeds: `nmemb` zeros. -/
def calloc {α : Type} [Zero α] (nmemb : Nat) : Option (List α) :=
  some (List.replicate nmemb 0)

/-! ## Data model (`include/matrix.h`, `include/vector.h`) -/

/-- The struct `Matrix`: a row-major buffer with its dimensions. -/
structure Matrix (α : Type) where
  data : List α
  rows : Nat
  cols : Nat
deriving DecidableEq

/-- The struct `Vector`: a buffer with its length. -/
structure Vector (α : Type) where
  data : List α
  size : Nat
deriving DecidableEq

/-- Shape invariant of a matrix: the buffer holds exactly `rows * cols` elements. -/
def Matrix.shape_inv {α : Type} (m : Matrix α) : Prop := m.data.length = m.rows * m.cols

/-- The element count of a matrix is a `size_t` value, as it is for every buffer in memory. -/
def Matrix.addressable {α : Type} (m : Matrix α) : Prop := m.rows * m.cols < SIZE_MOD

/-- Shape invariant of a vector: the buffer holds exactly `size` elements. -/
def Vector.shape_inv (v : Vector α) : Prop := v.data.length = v.size

/-- Row-major offset `i * cols + j`, computed in `size_t`. -/
def offset (i cols j : Nat) : Nat := size_add (size_mul i cols) j

/-- Element `(i, j)` of a matrix: the value stored at row-major offset `i * cols + j`. -/
def Matrix.elem {α : Type} [Zero α] (m : Matrix α) (i j : Nat) : α := load m.data (i * m.cols + j)

/-! ## `src/utils.c` -/

/-- The function `utils_abs`. -/
def utils_abs {α : Type} [Zero α] [Neg α] [LT α] [DecidableRel (fun a b : α => a < b)]
    (x : α) : α := if x < 0 then -x else x

/-- The function `utils_double_equal`; the C `int` result is read as a `Bool`. -/
def utils_double_equal {α : Type} [Zero α] [Neg α] [Sub α] [LT α]
    [DecidableRel (fun a b : α => a < b)] (a b epsilon : α) : Bool :=
  decide (utils_abs (a - b) < epsilon)

/-! ## `src/matrix.c` -/

/-- The function `matrix_create`. -/
def matrix_create {α : Type} [Zero α] (rows cols : Nat) : Option (Matrix α) :=
  match calloc (size_mul rows cols) with
  | none => none
  | some data => some { data := data, rows := rows, cols := cols }

/-- The function `matrix_multiply`. -/
def matrix_multiply (a b : Option (Matrix α)) : Option (Matrix α) :=
  match a, b with
  | some a, some b =>
    if a.cols ≠ b.rows then none
    else
      match matrix_create a.rows b.cols with
      | none => none
      | some result =>
        some { result with
          data :=
            for_range a.rows (fun i d =>
              for_range b.cols (fun j d =>
                let sum :=
                  for_range a.cols (fun k sum =>
                    sum + load a.data (offset i a.cols k) * load b.data (offset k b.cols j)) 0
                d.set (offset i result.cols j) sum) d) result.data }
  | _, _ => none

/-- The function `matrix_add`. -/
def matrix_add (a b : Option (Matrix α)) : Option (Matrix α) :=
  match a, b with
  | some a, some b =>
    if a.rows ≠ b.rows ∨ a.cols ≠ b.cols then none
    else
      match matrix_create a.rows a.cols with
      | none => none
      | some result =>
        let total := size_mul a.rows a.cols
        some { result with
          data := for_range total (fun i d => d.set i (load a.data i + load b.data i)) result.data }
  | _, _ => none

/-- The function `matrix_transpose`. -/
def matrix_transpose {α : Type} [Zero α] (m : Option (Matrix α)) : Option (Matrix α) :=
  match m with
  | none => none
  | some m =>
    match matrix_create m.cols m.rows with
    | none => none
    | some result =>
      some { result with
        data :=
          for_range m.rows (fun i d =>
            for_range m.cols (fun j d =>
              d.set (offset j result.cols i) (load m.data (offset i m.cols j))) d) result.data }

/-- The function `matrix_scale`.  It returns nothing and writes through its argument, so it is
a transformer of the caller's memory: `heap` lists the matrices alive before the call, `m` is
`NULL` or the address (position in `heap`) of one of them, and the result lists the matrices
alive after the call.  An address outside `heap` is a dangling pointer; the heap is then left
as it is. -/
def matrix_scale (heap : List (Matrix α)) (m : Option Nat) (scalar : α) : List (Matrix α) :=
  match m with
  | none => heap
  | some p =>
    match heap[p]? with
    | none => heap
    | some mat =>
      let total := size_mul mat.rows mat.cols
      heap.set p { mat with
        data := for_range total (fun i d => d.set i (load d i * scalar)) mat.data }

/-- The function `matrix_equal`; the C `int` result is read as a `Bool`. -/
def matrix_equal {α : Type} [Zero α] [Neg α] [Sub α] [LT α]
    [DecidableRel (fun a b : α => a < b)] (a b : Option (Matrix α)) (epsilon : α) : Bool :=
  match a, b with
  | some a, some b =>
    if a.rows ≠ b.rows ∨ a.cols ≠ b.cols then false
    else
      let total := size_mul a.rows a.cols
      (List.range total).all (fun i => utils_double_equal (load a.data i) (load b.data i) epsilon)
  | _, _ => false

/-! ## `src/vector.c` -/

/-- The function `vector_create`. -/
def vector_create (size : Nat) : Option (Vector α) :=
  match calloc size with
  | none => none
  | some data => some { data := data, size := size }

/-- The function `vector_dot`. -/
def vector_dot (a b : Option (Vector α)) : α :=
  match a, b with
  | some a, some b =>
    if a.size ≠ b.size then 0
    else for_range a.size (fun i result => result + load a.data i * load b.data i) 0
  | _, _ => 0

/-- The function `vector_add`. -/
def vector_add (a b : Option (Vector α)) : Option (Vector α) :=
  match a, b with
  | some a, some b =>
    if a.size ≠ b.size then none
    else
      match vector_create a.size with
      | none => none
      | some result =>
        some { result with
          data := for_range a.size (fun i d => d.set i (load a.data i + load b.data i)) result.data }
  | _, _ => none

/-- The function `vector_scale`. -/
def vector_scale (v : Option (Vector α)) (scalar : α) : Option (Vector α) :=
  match v with
  | none => none
  | some v =>
    match vector_create v.size with
    | none => none
    | some result =>
      some { result with
        data := for_range v.size (fun i d => d.set i (load v.data i * scalar)) result.data }

/-- The function `vector_magnitude`; `sqrt` is the libm square root it calls. -/
def vector_magnitude (sqrt : α → α) (v : Option (Vector α)) : α :=
  match v with
  | none => 0
  | some v => sqrt (for_range v.size (fun i sum => sum + load v.data i * load v.data i) 0)

/-- The function `vector_normalize`; `sqrt` is the libm square root used by `vector_magnitude`. -/
def vector_normalize (sqrt : α → α) (v : Option (Vector α)) : Option (Vector α) :=
  match v with
  | none => none
  | some v =>
    let mag := vector_magnitude sqrt (some v)
    if mag < 1 / 10000000000 then none
    else vector_scale (some v) (1 / mag)

/-- The function `vector_equal`; the C `int` result is read as a `Bool`. -/
def vector_equal (a b : Option (Vector α)) (epsilon : α) : Bool :=
  match a, b with
  | some a, some b =>
    if a.size ≠ b.size then false
    else (List.range a.size).all (fun i => utils_double_equal (load a.data i) (load b.data i) epsilon)
  | _, _ => false

/-! ## `src/stats.c`

An array argument `const double *data` is `none` for `NULL` and otherwise the buffer it points
to.  `stats_sort` and `stats_median` take a pointer they may write through, so they are
transformers of the caller's memory: `heap` lists the buffers alive before the call and a
pointer is `NULL` or the address (position in `heap`) of one of them. -/

/-- The loop `for (size_t i = start; i < n; i++) body`. -/
def for_range_from {σ : Type} (start n : Nat) (body : Nat → σ → σ) (init : σ) : σ :=
  (List.range' start (n - start)).foldl (fun s i => body i s) init

/-- The function `stats_mean`. -/
def stats_mean (data : Option (List α)) (n : Nat) : α :=
  match data with
  | none => 0
  | some d =>
    if n = 0 then 0
    else for_range n (fun i sum => sum + load d i) 0 / (n : α)

/-- The function `stats_variance`. -/
def stats_variance (data : Option (List α)) (n : Nat) : α :=
  match data with
  | none => 0
  | some d =>
    if n = 0 then 0
    else
      let mean := stats_mean (some d) n
      let sum_sq_diff :=
        for_range n (fun i sum_sq_diff =>
          let diff := load d i - mean
          sum_sq_diff + diff * diff) 0
      sum_sq_diff / (n : α)

/-- The function `stats_stddev`; `sqrt` is the libm square root it calls. -/
def stats_stddev (sqrt : α → α) (data : Option (List α)) (n : Nat) : α :=
  sqrt (stats_variance data n)

/-- The function `stats_min`. -/
def stats_min (data : Option (List α)) (n : Nat) : α :=
  match data with
  | none => 0
  | some d =>
    if n = 0 then 0
    else
      for_range_from 1 n (fun i min_val => if load d i < min_val then load d i else min_val)
        (load d 0)

/-- The function `stats_max`. -/
def stats_max (data : Option (List α)) (n : Nat) : α :=
  match data with
  | none => 0
  | some d =>
    if n = 0 then 0
    else
      for_range_from 1 n (fun i max_val => if load d i > max_val then load d i else max_val)
        (load d 0)

/-- The function `compare_doubles`. -/
def compare_doubles (a b : α) : Int :=
  let diff := a - b
  if diff < 0 then -1
  else if diff > 0 then 1
  else 0

/-- The libc call `qsort(base, nmemb, sizeof(double), compar)`: the first `nmemb` elements of
the buffer are put in ascending order of `compar` (`x` before `y` when `compar x y ≤ 0`), the
rest of the buffer is not touched. -/
def qsort (base : List α) (nmemb : Nat) (compar : α → α → Int) : List α :=
  (base.take nmemb).insertionSort (fun x y => compar x y ≤ 0) ++ base.drop nmemb

/-- The function `stats_sort`.  An address outside `heap` is a dangling pointer; the heap is
then left as it is. -/
def stats_sort (heap : List (List α)) (data : Option Nat) (n : Nat) : List (List α) :=
  match data with
  | none => heap
  | some p =>
    match heap[p]? with
    | none => heap
    | some d =>
      if n = 0 then heap
      else heap.set p (qsort d n compare_doubles)

/-- The function `stats_median`: the returned value together with the caller's memory after
the call.  `malloc` succeeds and puts the buffer `temp` at a fresh address, `memcpy` fills it
with the first `n` elements of `data`, and `free` releases it. -/
def stats_median (heap : List (List α)) (data : Option Nat) (n : Nat) : α × List (List α) :=
  match data with
  | none => (0, heap)
  | some p =>
    match heap[p]? with
    | none => (0, heap)
    | some d =>
      if n = 0 then (0, heap)
      else
        let temp := heap.length
        let heap := heap ++ [d.take n]
        let heap := stats_sort heap (some temp) n
        let median :=
          if n % 2 = 0 then (load (heap.getD temp []) (n / 2 - 1) + load (heap.getD temp []) (n / 2)) / 2
          else load (heap.getD temp []) (n / 2)
        (median, heap.eraseIdx temp)

/-- The function `stats_correlation`; `sqrt` is the libm square root it calls.  The loop state
is the triple `(sum_xy, sum_x_sq, sum_y_sq)`. -/
def stats_correlation (sqrt : α → α) (x y : Option (List α)) (n : Nat) : α :=
  match x, y with
  | some x, some y =>
    if n = 0 then 0
    else
      let mean_x := stats_mean (some x) n
      let mean_y := stats_mean (some y) n
      let sums :=
        for_range n (fun i (s : α × α × α) =>
          let dx := load x i - mean_x
          let dy := load y i - mean_y
          (s.1 + dx * dy, s.2.1 + dx * dx, s.2.2 + dy * dy)) (0, 0, 0)
      let denominator := sqrt (sums.2.1 * sums.2.2)
      if denominator < 1 / 10000000000 then 0
      else sums.1 / denominator
  | _, _ => 0

/-! ## Doubles with infinities and NaN

The functions of the transpose-and-compare path (`matrix_create`, `matrix_transpose`,
`utils_abs`, `utils_double_equal`, `matrix_equal`) are stated over the operations they use, so
they also run on the values of `ExtDouble`. -/

/-- A `double` with its special values: a finite value, read exactly as a rational, `+inf`,
`-inf` or NaN.  Rounding, overflow of finite arithmetic and the sign of zero are left out. -/
inductive ExtDouble where
  | finite (q : ℚ)
  | pos_inf
  | neg_inf
  | nan
deriving DecidableEq

/-- The value is a finite number. -/
def ExtDouble.is_finite : ExtDouble → Prop
  | ExtDouble.finite _ => True
  | _ => False

/-- IEEE 754 subtraction: exact on finite values, `inf - inf` is NaN, NaN propagates. -/
def ExtDouble.sub : ExtDouble → ExtDouble → ExtDouble
  | ExtDouble.nan, _ => ExtDouble.nan
  | _, ExtDouble.nan => ExtDouble.nan
  | ExtDouble.finite p, ExtDouble.finite q => ExtDouble.finite (p - q)
  | ExtDouble.finite _, ExtDouble.pos_inf => ExtDouble.neg_inf
  | ExtDouble.finite _, ExtDouble.neg_inf => ExtDouble.pos_inf
  | ExtDouble.pos_inf, ExtDouble.pos_inf => ExtDouble.nan
  | ExtDouble.pos_inf, _ => ExtDouble.pos_inf
  | ExtDouble.neg_inf, ExtDouble.neg_inf => ExtDouble.nan
  | ExtDouble.neg_inf, _ => ExtDouble.neg_inf

/-- IEEE 754 negation. -/
def ExtDouble.neg : ExtDouble → ExtDouble
  | ExtDouble.finite q => ExtDouble.finite (-q)
  | ExtDouble.pos_inf => ExtDouble.neg_inf
  | ExtDouble.neg_inf => ExtDouble.pos_inf
  | ExtDouble.nan => ExtDouble.nan

/-- IEEE 754 comparison `<`: false as soon as an operand is NaN. -/
def ExtDouble.lt : ExtDouble → ExtDouble → Bool
  | ExtDouble.nan, _ => false
  | _, ExtDouble.nan => false
  | ExtDouble.finite p, ExtDouble.finite q => decide (p < q)
  | ExtDouble.finite _, ExtDouble.pos_inf => true
  | ExtDouble.finite _, ExtDouble.neg_inf => false
  | ExtDouble.pos_inf, _ => false
  | ExtDouble.neg_inf, ExtDouble.neg_inf => false
  | ExtDouble.neg_inf, _ => true

instance : Zero ExtDouble := ⟨ExtDouble.finite 0⟩

instance : Sub ExtDouble := ⟨ExtDouble.sub⟩

instance : Neg ExtDouble := ⟨ExtDouble.neg⟩

instance : LT ExtDouble := ⟨fun a b => ExtDouble.lt a b = true⟩

instance : DecidableRel (fun a b : ExtDouble => a < b) :=
  fun a b => inferInstanceAs (Decidable (ExtDouble.lt a b = true))

/-! ## Machine arithmetic and loops -/

theorem size_mul_of_lt {a b : Nat} (h : a * b < SIZE_MOD) : size_mul a b = a * b :=
  Nat.mod_eq_of_lt h

theorem row_major_lt {rows cols i j : Nat} (hi : i < rows) (hj : j < cols) :
    i * cols + j < rows * cols := by
  have hrow : i * cols + cols ≤ rows * cols := by
    have := Nat.mul_le_mul_right cols (Nat.succ_le_of_lt hi)
    rwa [Nat.succ_mul] at this
  omega

theorem offset_of_lt {r c i j : Nat} (hi : i < r) (hj : j < c) (h : r * c < SIZE_MOD) :
    offset i c j = i * c + j := by
  have hlt := row_major_lt hi hj
  have h1 : i * c < SIZE_MOD := by omega
  unfold offset size_add size_mul
  rw [Nat.mod_eq_of_lt h1, Nat.mod_eq_of_lt (by omega)]

theorem row_major_inj {c i j i' j' : Nat} (hj : j < c) (hj' : j' < c)
    (h : i * c + j = i' * c + j') : i = i' ∧ j = j' := by
  have hc : 0 < c := by omega
  have e1 : (i * c + j) / c = i := by
    rw [Nat.add_comm, Nat.add_mul_div_right _ _ hc, Nat.div_eq_of_lt hj, Nat.zero_add]
  have e2 : (i' * c + j') / c = i' := by
    rw [Nat.add_comm, Nat.add_mul_div_right _ _ hc, Nat.div_eq_of_lt hj', Nat.zero_add]
  have hi : i = i' := by rw [← e1, ← e2, h]
  subst hi
  exact ⟨rfl, by omega⟩

theorem for_range_zero {σ : Type} (body : Nat → σ → σ) (init : σ) :
    for_range 0 body init = init := rfl

theorem for_range_succ {σ : Type} (n : Nat) (body : Nat → σ → σ) (init : σ) :
    for_range (n + 1) body init = body n (for_range n body init) := by
  simp [for_range, List.range_succ]

/-- Loop rule: an invariant that holds on entry and is kept by each iteration holds on exit. -/
theorem for_range_invariant {σ : Type} (P : Nat → σ → Prop) (n : Nat) (body : Nat → σ → σ)
    (init : σ) (h0 : P 0 init) (hstep : ∀ i, i < n → ∀ s, P i s → P (i + 1) (body i s)) :
    P n (for_range n body init) := by
  induction n with
  | zero => exact h0
  | succ k ih =>
    rw [for_range_succ]
    exact hstep k (Nat.lt_succ_self k) _ (ih (fun i hi s hs => hstep i (Nat.lt_succ_of_lt hi) s hs))

/-- The accumulation `sum += f k` for `k = 0 .. n-1`, started at zero, is the finite sum. -/
theorem for_range_sum (n : Nat) (f : Nat → α) :
    for_range n (fun k sum => sum + f k) 0 = ∑ k in Finset.range n, f k := by
  induction n with
  | zero => simp [for_range_zero]
  | succ k ih => rw [for_range_succ, ih, Finset.sum_range_succ]

/-- A doubly nested loop storing `val i j` at `pos i j`: when the positions are inside the
buffer and never collide, the buffer keeps its length and ends with `val i j` at `pos i j`. -/
theorem nested_store {α : Type} (R C : Nat) (pos : Nat → Nat → Nat) (val : Nat → Nat → α) (d : List α)
    (hb : ∀ i, i < R → ∀ j, j < C → pos i j < d.length)
    (hinj : ∀ i, i < R → ∀ j, j < C → ∀ i', i' < R → ∀ j', j' < C →
      pos i j = pos i' j' → i = i' ∧ j = j') :
    (for_range R (fun i d => for_range C (fun j d => d.set (pos i j) (val i j)) d) d).length
        = d.length ∧
      ∀ i, i < R → ∀ j, j < C →
        (for_range R (fun i d => for_range C (fun j d => d.set (pos i j) (val i j)) d) d)[pos i j]?
          = some (val i j) := by
  refine for_range_invariant
    (fun n s => s.length = d.length ∧ ∀ i, i < n → ∀ j, j < C → s[pos i j]? = some (val i j))
    R _ d ⟨rfl, fun i hi => absurd hi (Nat.not_lt_zero i)⟩ ?_
  intro i hi s hs
  have inner := for_range_invariant
    (fun m t => t.length = d.length ∧
      (∀ i', i' < i → ∀ j, j < C → t[pos i' j]? = some (val i' j)) ∧
      ∀ j, j < m → t[pos i j]? = some (val i j))
    C (fun j d => d.set (pos i j) (val i j)) s
    ⟨hs.1, hs.2, fun j hj => absurd hj (Nat.not_lt_zero j)⟩ ?_
  · refine ⟨inner.1, fun i' hi' j hj => ?_⟩
    rcases Nat.lt_succ_iff_lt_or_eq.mp hi' with h | h
    · exact inner.2.1 i' h j hj
    · subst h; exact inner.2.2 j hj
  · intro j hj t ht
    refine ⟨by simpa using ht.1, fun i' hi' j' hj' => ?_, fun j' hj' => ?_⟩
    · have hne : pos i j ≠ pos i' j' := fun e => by
        have := (hinj i hi j hj i' (by omega) j' hj' e).1
        omega
      rw [List.getElem?_set_ne hne]
      exact ht.2.1 i' hi' j' hj'
    · rcases Nat.lt_succ_iff_lt_or_eq.mp hj' with h | h
      · have hne : pos i j ≠ pos i j' := fun e => by
          have := (hinj i hi j hj i hi j' (by omega) e).2
          omega
        rw [List.getElem?_set_ne hne]
        exact ht.2.2 j' h
      · subst h
        have hlt : pos i j' < t.length := by rw [ht.1]; exact hb i hi j' hj
        simp [hlt]

theorem load_of_getElem? {α : Type} [Zero α] {d : List α} {k : Nat} {x : α} (h : d[k]? = some x) : load d k = x := by
  simp [load, List.getD_eq_getElem?_getD, h]

theorem getElem?_eq_load {α : Type} [Zero α] {d : List α} {k : Nat} (h : k < d.length) : d[k]? = some (load d k) := by
  simp [load, List.getD_eq_getElem?_getD, List.getElem?_eq_getElem h]

/-- Under the shape invariant, element `(i, j)` is inside the buffer. -/
theorem elem_in_buffer {α : Type} [Zero α] (m : Matrix α) (hm : m.shape_inv) {i j : Nat} (hi : i < m.rows)
    (hj : j < m.cols) : m.data[i * m.cols + j]? = some (m.elem i j) := by
  have hlt : i * m.cols + j < m.data.length := by rw [hm]; exact row_major_lt hi hj
  simp [Matrix.elem, load, List.getD, List.getElem?_eq_getElem hlt]

theorem matrix_create_eq {α : Type} [Zero α] {rows cols : Nat} (h : rows * cols < SIZE_MOD) :
    (matrix_create rows cols : Option (Matrix α))
      = some { data := List.replicate (rows * cols) 0, rows := rows, cols := cols } := by
  simp [matrix_create, calloc, size_mul_of_lt h]

/-! ## `matrix_multiply` -/

theorem matrix_multiply_elems (a b : Matrix α) (ha : a.addressable) (hb : b.addressable)
    (hab : a.cols = b.rows) (halloc : a.rows * b.cols < SIZE_MOD) :
    ∃ r : Matrix α, matrix_multiply (some a) (some b) = some r ∧
      r.rows = a.rows ∧ r.cols = b.cols ∧ r.data.length = a.rows * b.cols ∧
      ∀ i, i < a.rows → ∀ j, j < b.cols →
        r.data[i * b.cols + j]? = some (∑ k in Finset.range a.cols, a.elem i k * b.elem k j) := by
  have key := nested_store a.rows b.cols (fun i j => offset i b.cols j)
    (fun i j => for_range a.cols (fun k sum =>
      sum + load a.data (offset i a.cols k) * load b.data (offset k b.cols j)) 0)
    (List.replicate (a.rows * b.cols) 0)
    (fun i hi j hj => by
      show offset i b.cols j < _
      rw [offset_of_lt hi hj halloc, List.length_replicate]; exact row_major_lt hi hj)
    (fun i hi j hj i' hi' j' hj' e => by
      have e' : offset i b.cols j = offset i' b.cols j' := e
      rw [offset_of_lt hi hj halloc, offset_of_lt hi' hj' halloc] at e'
      exact row_major_inj hj hj' e')
  have hmul : matrix_multiply (some a) (some b) = some
      { data := for_range a.rows (fun i d => for_range b.cols (fun j d =>
          d.set (offset i b.cols j) (for_range a.cols (fun k sum =>
            sum + load a.data (offset i a.cols k) * load b.data (offset k b.cols j)) 0)) d)
          (List.replicate (a.rows * b.cols) 0),
        rows := a.rows, cols := b.cols } := by
    simp only [matrix_multiply, matrix_create_eq halloc]
    rw [if_neg (not_not.mpr hab)]
  refine ⟨_, hmul, rfl, rfl, ?_, ?_⟩
  · simpa using key.1
  · intro i hi j hj
    have h := key.2 i hi j hj
    simp only [offset_of_lt hi hj halloc] at h
    rw [for_range_sum] at h
    rw [h]
    congr 1
    refine Finset.sum_congr rfl (fun k hk => ?_)
    have hk' : k < a.cols := Finset.mem_range.mp hk
    rw [offset_of_lt hi hk' ha, offset_of_lt (hab ▸ hk') hj hb]
    rfl

/-- C1. For matrices `a` and `b` that satisfy the shape invariant (their element counts being
`size_t` values) with `a.cols = b.rows`, when
the allocation of the result succeeds (its `a.rows * b.cols` elements are a `size_t` count),
`matrix_multiply` returns a matrix with `a.rows` rows and `b.cols` columns whose element `(i, j)`,
stored at offset `i * b.cols + j`, is the sum over `k < a.cols` of `a[i,k] * b[k,j]`. -/
theorem matrix_multiply_spec (a b : Matrix α) (ha : a.shape_inv) (hb : b.shape_inv)
    (ha_mem : a.addressable) (hb_mem : b.addressable) (hab : a.cols = b.rows)
    (halloc : a.rows * b.cols < SIZE_MOD) :
    ∃ r : Matrix α, matrix_multiply (some a) (some b) = some r ∧
      r.rows = a.rows ∧ r.cols = b.cols ∧ r.shape_inv ∧
      ∀ i, i < a.rows → ∀ j, j < b.cols →
        r.data[i * b.cols + j]? = some (∑ k in Finset.range a.cols, a.elem i k * b.elem k j) := by
  obtain ⟨r, h, hr, hc, hlen, hel⟩ := matrix_multiply_elems a b ha_mem hb_mem hab halloc
  exact ⟨r, h, hr, hc, by rw [Matrix.shape_inv, hlen, hr, hc], hel⟩

/-- C1, the test of `test_matrix_multiply`: `[[1,2],[3,4]]` times `[[5,6],[7,8]]` is
`[[19,22],[43,50]]`, read off the general statement. -/
theorem matrix_multiply_spec_witness :
    ∃ r : Matrix ℚ,
      matrix_multiply (some ⟨[1, 2, 3, 4], 2, 2⟩) (some ⟨[5, 6, 7, 8], 2, 2⟩) = some r ∧
      r.rows = 2 ∧ r.cols = 2 ∧
      r.data[0]? = some 19 ∧ r.data[1]? = some 22 ∧ r.data[2]? = some 43 ∧ r.data[3]? = some 50 := by
  obtain ⟨r, h, hr, hc, -, hel⟩ := matrix_multiply_spec (⟨[1, 2, 3, 4], 2, 2⟩ : Matrix ℚ)
    ⟨[5, 6, 7, 8], 2, 2⟩ (by simp [Matrix.shape_inv]) (by simp [Matrix.shape_inv])
    (by simp [Matrix.addressable, SIZE_MOD]) (by simp [Matrix.addressable, SIZE_MOD]) rfl
    (by simp [SIZE_MOD])
  refine ⟨r, h, hr, hc, ?_, ?_, ?_, ?_⟩
  · have := hel 0 (by norm_num) 0 (by norm_num)
    norm_num [Matrix.elem, load, Finset.sum_range_succ] at this
    exact this
  · have := hel 0 (by norm_num) 1 (by norm_num)
    norm_num [Matrix.elem, load, Finset.sum_range_succ] at this
    exact this
  · have := hel 1 (by norm_num) 0 (by norm_num)
    norm_num [Matrix.elem, load, Finset.sum_range_succ] at this
    exact this
  · have := hel 1 (by norm_num) 1 (by norm_num)
    norm_num [Matrix.elem, load, Finset.sum_range_succ] at this
    exact this

/-- The test of `test_matrix_multiply`, by running the function. -/
theorem matrix_multiply_example :
    matrix_multiply (some (⟨[1, 2, 3, 4], 2, 2⟩ : Matrix ℚ)) (some ⟨[5, 6, 7, 8], 2, 2⟩)
      = some ⟨[19, 22, 43, 50], 2, 2⟩ := by
  simp [matrix_multiply, matrix_create, calloc, size_mul, size_add, offset, SIZE_MOD, for_range,
    load, List.range_succ]
  norm_num

/-- C2. For present `a` and `b` (allocation succeeding) `matrix_multiply` returns the absent
result exactly when `a.cols ≠ b.rows`; it returns absent when either operand is absent; and a
matrix it returns has `a.rows` rows and `b.cols` columns. -/
theorem matrix_multiply_absent :
    (∀ a b : Matrix α, matrix_multiply (some a) (some b) = none ↔ a.cols ≠ b.rows) ∧
    (∀ b : Option (Matrix α), matrix_multiply none b = none) ∧
    (∀ a : Option (Matrix α), matrix_multiply a none = none) ∧
    (∀ a b r : Matrix α, matrix_multiply (some a) (some b) = some r →
      r.rows = a.rows ∧ r.cols = b.cols) := by
  refine ⟨fun a b => ?_, fun b => ?_, fun a => ?_, fun a b r h => ?_⟩
  · by_cases hab : a.cols = b.rows
    · simp [matrix_multiply, matrix_create, calloc, hab]
    · simp [matrix_multiply, hab]
  · cases b <;> rfl
  · cases a <;> rfl
  · by_cases hab : a.cols = b.rows
    · simp only [matrix_multiply, matrix_create, calloc, hab, ne_eq, not_true_eq_false, if_false,
        Option.some.injEq] at h
      subst h
      exact ⟨rfl, rfl⟩
    · simp [matrix_multiply, hab] at h

/-! ## `matrix_transpose` -/

theorem matrix_transpose_elems {α : Type} [Zero α] (m : Matrix α) (hm : m.addressable) :
    ∃ r : Matrix α, matrix_transpose (some m) = some r ∧
      r.rows = m.cols ∧ r.cols = m.rows ∧ r.data.length = m.cols * m.rows ∧
      ∀ i, i < m.rows → ∀ j, j < m.cols → r.data[j * m.rows + i]? = some (m.elem i j) := by
  have hm' : m.cols * m.rows < SIZE_MOD := by rw [Nat.mul_comm]; exact hm
  have key := nested_store m.rows m.cols (fun i j => offset j m.rows i)
    (fun i j => load m.data (offset i m.cols j))
    (List.replicate (m.cols * m.rows) 0)
    (fun i hi j hj => by
      show offset j m.rows i < _
      rw [offset_of_lt hj hi hm', List.length_replicate]; exact row_major_lt hj hi)
    (fun i hi j hj i' hi' j' hj' e => by
      have e' : offset j m.rows i = offset j' m.rows i' := e
      rw [offset_of_lt hj hi hm', offset_of_lt hj' hi' hm'] at e'
      exact (row_major_inj hi hi' e').symm)
  have htr : matrix_transpose (some m) = some
      { data := for_range m.rows (fun i d => for_range m.cols (fun j d =>
          d.set (offset j m.rows i) (load m.data (offset i m.cols j))) d)
          (List.replicate (m.cols * m.rows) 0),
        rows := m.cols, cols := m.rows } := by
    simp only [matrix_transpose, matrix_create_eq hm']
  refine ⟨_, htr, rfl, rfl, ?_, ?_⟩
  · simpa using key.1
  · intro i hi j hj
    have h := key.2 i hi j hj
    simp only [offset_of_lt hj hi hm', offset_of_lt hi hj hm] at h
    exact h

/-- C3. For a matrix `m` that satisfies the shape invariant, its element count being a `size_t`
value (allocation succeeding), `matrix_transpose` returns a matrix with `m.cols` rows and `m.rows` columns whose element
`(j, i)`, at offset `j * m.rows + i`, is the element `(i, j)` of `m`, at offset
`i * m.cols + j`. -/
theorem matrix_transpose_spec (m : Matrix α) (hm : m.shape_inv) (hm_mem : m.addressable) :
    ∃ r : Matrix α, matrix_transpose (some m) = some r ∧
      r.rows = m.cols ∧ r.cols = m.rows ∧ r.shape_inv ∧
      ∀ i, i < m.rows → ∀ j, j < m.cols →
        r.data[j * m.rows + i]? = m.data[i * m.cols + j]? ∧
        r.data[j * m.rows + i]? = some (m.elem i j) := by
  obtain ⟨r, h, hr, hc, hlen, hel⟩ := matrix_transpose_elems m hm_mem
  exact ⟨r, h, hr, hc, by rw [Matrix.shape_inv, hlen, hr, hc],
    fun i hi j hj => ⟨by rw [hel i hi j hj, elem_in_buffer m hm hi hj], hel i hi j hj⟩⟩

/-- C3, the test of `test_matrix_transpose`: the transpose of `[[1,2,3],[4,5,6]]` is
`[[1,4],[2,5],[3,6]]`, read off the general statement. -/
theorem matrix_transpose_spec_witness :
    ∃ r : Matrix ℚ, matrix_transpose (some ⟨[1, 2, 3, 4, 5, 6], 2, 3⟩) = some r ∧
      r.rows = 3 ∧ r.cols = 2 ∧
      r.data[0]? = some 1 ∧ r.data[1]? = some 4 ∧ r.data[2]? = some 2 ∧
      r.data[3]? = some 5 ∧ r.data[4]? = some 3 ∧ r.data[5]? = some 6 := by
  obtain ⟨r, h, hr, hc, -, hel⟩ := matrix_transpose_spec (⟨[1, 2, 3, 4, 5, 6], 2, 3⟩ : Matrix ℚ)
    (by simp [Matrix.shape_inv]) (by simp [Matrix.addressable, SIZE_MOD])
  have e00 := (hel 0 (by norm_num) 0 (by norm_num)).2
  have e01 := (hel 0 (by norm_num) 1 (by norm_num)).2
  have e02 := (hel 0 (by norm_num) 2 (by norm_num)).2
  have e10 := (hel 1 (by norm_num) 0 (by norm_num)).2
  have e11 := (hel 1 (by norm_num) 1 (by norm_num)).2
  have e12 := (hel 1 (by norm_num) 2 (by norm_num)).2
  simp only [Matrix.elem, load] at e00 e01 e02 e10 e11 e12
  norm_num at e00 e01 e02 e10 e11 e12
  exact ⟨r, h, hr, hc, e00, e10, e01, e11, e02, e12⟩

/-- The test of `test_matrix_transpose`, by running the function. -/
theorem matrix_transpose_example :
    matrix_transpose (some (⟨[1, 2, 3, 4, 5, 6], 2, 3⟩ : Matrix ℚ))
      = some ⟨[1, 4, 2, 5, 3, 6], 3, 2⟩ := by
  simp [matrix_transpose, matrix_create, calloc, size_mul, size_add, offset, SIZE_MOD, for_range,
    load, List.range_succ]

theorem utils_double_equal_self (x epsilon : α) (h : 0 < epsilon) :
    utils_double_equal x x epsilon = true := by
  simp [utils_double_equal, utils_abs, h]

theorem matrix_equal_self (m : Matrix α) (epsilon : α) (h : 0 < epsilon) :
    matrix_equal (some m) (some m) epsilon = true := by
  simp [matrix_equal, utils_double_equal_self _ _ h]

theorem matrix_transpose_transpose {α : Type} [Zero α] (m : Matrix α) (hm : m.shape_inv) (hm_mem : m.addressable) :
    matrix_transpose (matrix_transpose (some m)) = some m := by
  obtain ⟨r, h, hr, hc, hlen, hel⟩ := matrix_transpose_elems m hm_mem
  have hr_mem : r.addressable := by
    rw [Matrix.addressable, hr, hc, Nat.mul_comm]; exact hm_mem
  obtain ⟨t, h', tr, tc, tlen, tel⟩ := matrix_transpose_elems r hr_mem
  rw [h, h']
  simp only [hr, hc] at tr tc tlen
  have hdata : t.data = m.data := by
    apply List.ext_getElem?
    intro p
    by_cases hp : p < m.rows * m.cols
    · have hc0 : 0 < m.cols := by
        rcases Nat.eq_zero_or_pos m.cols with h0 | h0
        · rw [h0] at hp; simp at hp
        · exact h0
      have hi : p / m.cols < m.rows := Nat.div_lt_of_lt_mul (by rw [Nat.mul_comm]; exact hp)
      have hj : p % m.cols < m.cols := Nat.mod_lt _ hc0
      have hpe : p / m.cols * m.cols + p % m.cols = p := by
        rw [Nat.mul_comm]; exact Nat.div_add_mod p m.cols
      have e1 := tel (p % m.cols) (by rw [hr]; exact hj) (p / m.cols) (by rw [hc]; exact hi)
      have e2 := hel (p / m.cols) hi (p % m.cols) hj
      have e3 := elem_in_buffer m hm hi hj
      simp only [hr, hc, hpe] at e1 e3
      rw [e1, e3]
      congr 1
      have e4 : r.elem (p % m.cols) (p / m.cols)
          = load r.data (p % m.cols * m.rows + p / m.cols) := by
        rw [Matrix.elem, hc]
      rw [e4, load_of_getElem? e2]
    · have h1 : t.data.length ≤ p := by rw [tlen]; omega
      have h2 : m.data.length ≤ p := by rw [hm]; omega
      rw [List.getElem?_eq_none h1, List.getElem?_eq_none h2]
  obtain ⟨td, trows, tcols⟩ := t
  obtain ⟨md, mrows, mcols⟩ := m
  simp only at tr tc hdata
  rw [tr, tc, hdata]

/-- Transpose involution in the real-number reading, where every entry is a finite number: for
a matrix `m` that satisfies the shape invariant (its element count being a `size_t` value) and
a tolerance `epsilon > 0`, `matrix_equal` accepts the transpose of the transpose of `m` against
`m`; the twice-transposed matrix is `m` itself, rows, columns and buffer. -/
theorem matrix_transpose_involution (m : Matrix α) (epsilon : α) (hm : m.shape_inv)
    (hm_mem : m.addressable) (heps : 0 < epsilon) :
    matrix_equal (matrix_transpose (matrix_transpose (some m))) (some m) epsilon = true ∧
      matrix_transpose (matrix_transpose (some m)) = some m := by
  rw [matrix_transpose_transpose m hm hm_mem]
  exact ⟨matrix_equal_self m epsilon heps, rfl⟩

/-- The involution in the real-number reading at the matrix `[[1,2,3],[4,5,6]]` with tolerance
`1/1000000`. -/
theorem matrix_transpose_involution_witness :
    matrix_equal (matrix_transpose (matrix_transpose (some (⟨[1, 2, 3, 4, 5, 6], 2, 3⟩ : Matrix ℚ))))
        (some ⟨[1, 2, 3, 4, 5, 6], 2, 3⟩) (1 / 1000000) = true ∧
      matrix_transpose (matrix_transpose (some (⟨[1, 2, 3, 4, 5, 6], 2, 3⟩ : Matrix ℚ)))
        = some ⟨[1, 2, 3, 4, 5, 6], 2, 3⟩ :=
  matrix_transpose_involution ⟨[1, 2, 3, 4, 5, 6], 2, 3⟩ (1 / 1000000)
    (by simp [Matrix.shape_inv]) (by simp [Matrix.addressable, SIZE_MOD]) (by norm_num)

/-! ## Element-wise loops: `matrix_add`, `matrix_scale` -/

/-- A loop that replaces element `i` by `g i` of its current value, for `i = 0 .. n-1`: the
buffer keeps its length, the first `n` elements are updated from their initial values and the
rest are left as they were. -/
theorem single_update (n : Nat) (g : Nat → α → α) (d : List α) (hn : n ≤ d.length) :
    (for_range n (fun i t => t.set i (g i (load t i))) d).length = d.length ∧
      (∀ i, i < n →
        (for_range n (fun i t => t.set i (g i (load t i))) d)[i]? = some (g i (load d i))) ∧
      ∀ i, n ≤ i → (for_range n (fun i t => t.set i (g i (load t i))) d)[i]? = d[i]? := by
  refine for_range_invariant
    (fun k t => t.length = d.length ∧ (∀ i, i < k → t[i]? = some (g i (load d i))) ∧
      ∀ i, k ≤ i → t[i]? = d[i]?)
    n _ d ⟨rfl, fun i hi => absurd hi (Nat.not_lt_zero i), fun i _ => rfl⟩ ?_
  intro k hk t ht
  refine ⟨by simpa using ht.1, fun i hi => ?_, fun i hi => ?_⟩
  · rcases Nat.lt_succ_iff_lt_or_eq.mp hi with h | h
    · rw [List.getElem?_set_ne (by omega)]
      exact ht.2.1 i h
    · subst h
      have hlt : i < t.length := by rw [ht.1]; omega
      have hld : load t i = load d i := by
        have e := ht.2.2 i (Nat.le_refl i)
        rw [getElem?_eq_load hlt, getElem?_eq_load (by omega : i < d.length)] at e
        exact Option.some.inj e
      simp [hlt, hld]
  · rw [List.getElem?_set_ne (by omega)]
    exact ht.2.2 i (by omega)

theorem matrix_add_elems (a b : Matrix α) (ha_mem : a.addressable) (hr : a.rows = b.rows)
    (hc : a.cols = b.cols) :
    ∃ r : Matrix α, matrix_add (some a) (some b) = some r ∧
      r.rows = a.rows ∧ r.cols = a.cols ∧ r.data.length = a.rows * a.cols ∧
      ∀ i, i < a.rows * a.cols → r.data[i]? = some (load a.data i + load b.data i) := by
  have key := single_update (a.rows * a.cols) (fun i _ => load a.data i + load b.data i)
    (List.replicate (a.rows * a.cols) 0) (by simp)
  have hadd : matrix_add (some a) (some b) = some
      { data := for_range (a.rows * a.cols)
          (fun i d => d.set i (load a.data i + load b.data i))
          (List.replicate (a.rows * a.cols) 0),
        rows := a.rows, cols := a.cols } := by
    simp only [matrix_add, matrix_create_eq ha_mem, size_mul_of_lt ha_mem]
    rw [if_neg (by simp [hr, hc])]
  exact ⟨_, hadd, rfl, rfl, by simpa using key.1, fun i hi => key.2.1 i hi⟩

/-- C5. For present matrices `a` and `b` that satisfy the shape invariant, the element count
being a `size_t` value (allocation succeeding), `matrix_add` returns absent when the row counts or the column counts differ, and
otherwise a matrix of the same shape whose element at every offset `i < rows * cols` is
`a.data[i] + b.data[i]`. -/
theorem matrix_add_spec (a b : Matrix α) (ha : a.shape_inv) (hb : b.shape_inv)
    (ha_mem : a.addressable) :
    (a.rows ≠ b.rows ∨ a.cols ≠ b.cols → matrix_add (some a) (some b) = none) ∧
    (a.rows = b.rows → a.cols = b.cols →
      ∃ r : Matrix α, matrix_add (some a) (some b) = some r ∧
        r.rows = a.rows ∧ r.cols = a.cols ∧ r.shape_inv ∧
        ∀ i, i < a.rows * a.cols →
          ∃ x y, a.data[i]? = some x ∧ b.data[i]? = some y ∧ r.data[i]? = some (x + y)) := by
  refine ⟨fun h => by simp only [matrix_add]; rw [if_pos h], fun hr hc => ?_⟩
  obtain ⟨r, h, hrr, hrc, hlen, hel⟩ := matrix_add_elems a b ha_mem hr hc
  refine ⟨r, h, hrr, hrc, by rw [Matrix.shape_inv, hlen, hrr, hrc], fun i hi => ?_⟩
  have hia : i < a.data.length := by rw [ha]; exact hi
  have hib : i < b.data.length := by rw [hb, ← hr, ← hc]; exact hi
  exact ⟨load a.data i, load b.data i, getElem?_eq_load hia, getElem?_eq_load hib, hel i hi⟩

/-- C5, the test of `test_matrix_add`: `[[1,2],[3,4]] + [[5,6],[7,8]]` is `[[6,8],[10,12]]`,
read off the general statement. -/
theorem matrix_add_spec_witness :
    ∃ r : Matrix ℚ,
      matrix_add (some ⟨[1, 2, 3, 4], 2, 2⟩) (some ⟨[5, 6, 7, 8], 2, 2⟩) = some r ∧
      r.rows = 2 ∧ r.cols = 2 ∧
      r.data[0]? = some 6 ∧ r.data[1]? = some 8 ∧ r.data[2]? = some 10 ∧ r.data[3]? = some 12 := by
  obtain ⟨r, h, hr, hc, -, hel⟩ := (matrix_add_spec (⟨[1, 2, 3, 4], 2, 2⟩ : Matrix ℚ)
    ⟨[5, 6, 7, 8], 2, 2⟩ (by simp [Matrix.shape_inv]) (by simp [Matrix.shape_inv])
    (by simp [Matrix.addressable, SIZE_MOD])).2 rfl rfl
  obtain ⟨x0, y0, hx0, hy0, e0⟩ := hel 0 (by norm_num)
  obtain ⟨x1, y1, hx1, hy1, e1⟩ := hel 1 (by norm_num)
  obtain ⟨x2, y2, hx2, hy2, e2⟩ := hel 2 (by norm_num)
  obtain ⟨x3, y3, hx3, hy3, e3⟩ := hel 3 (by norm_num)
  simp only [List.getElem?_cons_zero, List.getElem?_cons_succ, Option.some.injEq] at hx0 hy0 hx1 hy1 hx2 hy2 hx3 hy3
  subst hx0 hy0 hx1 hy1 hx2 hy2 hx3 hy3
  norm_num at e0 e1 e2 e3
  exact ⟨r, h, hr, hc, e0, e1, e2, e3⟩

/-- The test of `test_matrix_add`, by running the function. -/
theorem matrix_add_example :
    matrix_add (some (⟨[1, 2, 3, 4], 2, 2⟩ : Matrix ℚ)) (some ⟨[5, 6, 7, 8], 2, 2⟩)
      = some ⟨[6, 8, 10, 12], 2, 2⟩ := by
  simp [matrix_add, matrix_create, calloc, size_mul, SIZE_MOD, for_range, load, List.range_succ]
  norm_num

/-- C6. `matrix_scale` works in place: called on the address `p` of a matrix `m` that satisfies
the shape invariant (its element count being a `size_t` value), it leaves the caller's memory with the same matrices at the same addresses
(none is created, every other one is untouched), and the matrix at `p` keeps its rows and
columns while each element `m.data[i]`, `i < rows * cols`, becomes its previous value times
`scalar`. -/
theorem matrix_scale_in_place (heap : List (Matrix α)) (p : Nat) (m : Matrix α) (scalar : α)
    (hp : heap[p]? = some m) (hm : m.shape_inv) (hm_mem : m.addressable) :
    (matrix_scale heap (some p) scalar).length = heap.length ∧
    (∀ q, q ≠ p → (matrix_scale heap (some p) scalar)[q]? = heap[q]?) ∧
    ∃ m' : Matrix α, (matrix_scale heap (some p) scalar)[p]? = some m' ∧
      m'.rows = m.rows ∧ m'.cols = m.cols ∧ m'.shape_inv ∧
      ∀ i, i < m.rows * m.cols →
        ∃ x, m.data[i]? = some x ∧ m'.data[i]? = some (x * scalar) := by
  have key := single_update (m.rows * m.cols) (fun _ x => x * scalar) m.data (by rw [hm])
  have hplt : p < heap.length := by
    rcases Nat.lt_or_ge p heap.length with h | h
    · exact h
    · rw [List.getElem?_eq_none h] at hp; cases hp
  have hsc : matrix_scale heap (some p) scalar = heap.set p
      { data := for_range (m.rows * m.cols) (fun i d => d.set i (load d i * scalar)) m.data,
        rows := m.rows, cols := m.cols } := by
    simp only [matrix_scale, hp, size_mul_of_lt hm_mem]
  rw [hsc]
  refine ⟨by simp, fun q hq => List.getElem?_set_ne (Ne.symm hq),
    { data := for_range (m.rows * m.cols) (fun i d => d.set i (load d i * scalar)) m.data,
      rows := m.rows, cols := m.cols }, by simp [hplt], rfl, rfl, ?_, fun i hi => ?_⟩
  · show (for_range (m.rows * m.cols) (fun i d => d.set i (load d i * scalar)) m.data).length
      = m.rows * m.cols
    exact key.1.trans hm
  · have hi' : i < m.data.length := by rw [hm]; exact hi
    exact ⟨load m.data i, getElem?_eq_load hi', key.2.1 i hi⟩

/-- C6 on a memory holding `[[1,2],[3,4]]` at address 0 and `[[5,6]]` at address 1: scaling the
first by 3 leaves two matrices, the second as it was and the first equal to
`[[3,6],[9,12]]`. -/
theorem matrix_scale_in_place_witness :
    (matrix_scale [(⟨[1, 2, 3, 4], 2, 2⟩ : Matrix ℚ), ⟨[5, 6], 1, 2⟩] (some 0) 3).length = 2 ∧
    (matrix_scale [(⟨[1, 2, 3, 4], 2, 2⟩ : Matrix ℚ), ⟨[5, 6], 1, 2⟩] (some 0) 3)[1]?
      = some ⟨[5, 6], 1, 2⟩ ∧
    ∃ m' : Matrix ℚ,
      (matrix_scale [(⟨[1, 2, 3, 4], 2, 2⟩ : Matrix ℚ), ⟨[5, 6], 1, 2⟩] (some 0) 3)[0]? = some m' ∧
      m'.rows = 2 ∧ m'.cols = 2 ∧
      m'.data[0]? = some 3 ∧ m'.data[1]? = some 6 ∧ m'.data[2]? = some 9 ∧
      m'.data[3]? = some 12 := by
  obtain ⟨hlen, hframe, m', hm', hr, hc, -, hel⟩ :=
    matrix_scale_in_place [(⟨[1, 2, 3, 4], 2, 2⟩ : Matrix ℚ), ⟨[5, 6], 1, 2⟩] 0 ⟨[1, 2, 3, 4], 2, 2⟩ 3
      rfl (by simp [Matrix.shape_inv]) (by simp [Matrix.addressable, SIZE_MOD])
  obtain ⟨x0, hx0, e0⟩ := hel 0 (by norm_num)
  obtain ⟨x1, hx1, e1⟩ := hel 1 (by norm_num)
  obtain ⟨x2, hx2, e2⟩ := hel 2 (by norm_num)
  obtain ⟨x3, hx3, e3⟩ := hel 3 (by norm_num)
  simp only [List.getElem?_cons_zero, List.getElem?_cons_succ, Option.some.injEq] at hx0 hx1 hx2 hx3
  subst hx0 hx1 hx2 hx3
  norm_num at e0 e1 e2 e3
  exact ⟨hlen, hframe 1 (by norm_num), m', hm', hr, hc, e0, e1, e2, e3⟩

/-- The function `matrix_scale` run on that memory. -/
theorem matrix_scale_example :
    matrix_scale [(⟨[1, 2, 3, 4], 2, 2⟩ : Matrix ℚ), ⟨[5, 6], 1, 2⟩] (some 0) 3
      = [⟨[3, 6, 9, 12], 2, 2⟩, ⟨[5, 6], 1, 2⟩] := by
  simp [matrix_scale, size_mul, SIZE_MOD, for_range, load, List.range_succ]
  norm_num

/-! ## `vector_dot` -/

theorem vector_dot_sum (a b : Vector α) (h : a.size = b.size) :
    vector_dot (some a) (some b) = ∑ i in Finset.range a.size, load a.data i * load b.data i := by
  simp only [vector_dot]
  rw [if_neg (not_not.mpr h), for_range_sum]

/-- C7. `vector_dot` returns 0 when either operand is absent or the sizes differ; for vectors of
equal size (satisfying the shape invariant) it returns the sum over `i < a.size` of
`a[i] * b[i]`, accumulated from 0 in ascending `i`; the dot product of `[1,2,3]` and `[4,5,6]`
is 32. -/
theorem vector_dot_spec :
    (∀ b : Option (Vector α), vector_dot none b = 0) ∧
    (∀ a : Option (Vector α), vector_dot a none = 0) ∧
    (∀ a b : Vector α, a.size ≠ b.size → vector_dot (some a) (some b) = 0) ∧
    (∀ a b : Vector α, a.shape_inv → b.shape_inv → a.size = b.size →
      vector_dot (some a) (some b)
          = (List.range a.size).foldl (fun acc i => acc + load a.data i * load b.data i) 0 ∧
      vector_dot (some a) (some b)
          = ∑ i in Finset.range a.size, load a.data i * load b.data i) ∧
    vector_dot (some (⟨[1, 2, 3], 3⟩ : Vector ℚ)) (some ⟨[4, 5, 6], 3⟩) = 32 := by
  refine ⟨fun b => ?_, fun a => ?_, fun a b h => ?_, fun a b _ _ h => ⟨?_, vector_dot_sum a b h⟩, ?_⟩
  · cases b <;> rfl
  · cases a <;> rfl
  · simp only [vector_dot]; rw [if_pos h]
  · simp only [vector_dot]; rw [if_neg (not_not.mpr h)]; rfl
  · rw [vector_dot_sum ⟨[1, 2, 3], 3⟩ ⟨[4, 5, 6], 3⟩ rfl]
    norm_num [Finset.sum_range_succ, load]

/-- C7 at the vectors of `test_vector_dot`, and at a pair of different sizes. -/
theorem vector_dot_spec_witness :
    vector_dot (some (⟨[1, 2, 3], 3⟩ : Vector ℚ)) (some ⟨[4, 5, 6], 3⟩)
        = ∑ i in Finset.range 3, load [(1 : ℚ), 2, 3] i * load [(4 : ℚ), 5, 6] i ∧
      vector_dot (some (⟨[1, 2], 2⟩ : Vector ℚ)) (some ⟨[4, 5, 6], 3⟩) = 0 :=
  ⟨((@vector_dot_spec ℚ _).2.2.2.1 ⟨[1, 2, 3], 3⟩ ⟨[4, 5, 6], 3⟩ rfl rfl rfl).2,
    (@vector_dot_spec ℚ _).2.2.1 ⟨[1, 2], 2⟩ ⟨[4, 5, 6], 3⟩ (by decide)⟩

/-- C8. The dot product is symmetric: `vector_dot a b = vector_dot b a`, for vectors of equal
length and also when the lengths differ or an operand is absent (both sides are then 0). -/
theorem vector_dot_comm (a b : Option (Vector α)) : vector_dot a b = vector_dot b a := by
  cases a with
  | none => cases b <;> rfl
  | some a =>
    cases b with
    | none => rfl
    | some b =>
      by_cases h : a.size = b.size
      · rw [vector_dot_sum a b h, vector_dot_sum b a h.symm, h]
        exact Finset.sum_congr rfl (fun i _ => mul_comm _ _)
      · simp only [vector_dot]
        rw [if_pos h, if_pos (Ne.symm h)]

/-! ## `vector_scale`, `vector_magnitude`, `vector_normalize` -/

theorem vector_scale_elems (v : Vector α) (scalar : α) :
    ∃ r : Vector α, vector_scale (some v) scalar = some r ∧ r.size = v.size ∧
      r.data.length = v.size ∧
      ∀ i, i < v.size → r.data[i]? = some (load v.data i * scalar) := by
  have key := single_update v.size (fun i _ => load v.data i * scalar)
    (List.replicate v.size 0) (by simp)
  have hsc : vector_scale (some v) scalar = some
      { data := for_range v.size (fun i d => d.set i (load v.data i * scalar))
          (List.replicate v.size 0),
        size := v.size } := by
    simp only [vector_scale, vector_create, calloc]
  exact ⟨_, hsc, rfl, by simpa using key.1, fun i hi => key.2.1 i hi⟩

theorem vector_magnitude_sum (sqrt : α → α) (v : Vector α) :
    vector_magnitude sqrt (some v)
      = sqrt (∑ i in Finset.range v.size, load v.data i * load v.data i) := by
  simp only [vector_magnitude]
  rw [for_range_sum]

theorem vector_normalize_eq (sqrt : α → α) (v : Vector α) :
    vector_normalize sqrt (some v)
      = if vector_magnitude sqrt (some v) < 1 / 10000000000 then none
        else vector_scale (some v) (1 / vector_magnitude sqrt (some v)) := by
  simp only [vector_normalize]

/-- C9. For a present vector `v` (allocation succeeding), `vector_normalize` returns absent
exactly when `vector_magnitude v < 1e-10`; otherwise it returns what
`vector_scale v (1 / vector_magnitude v)` returns, a vector of size `v.size` whose element `i`
is `v[i] * (1 / vector_magnitude v)`.  Here `sqrt` is any function. -/
theorem vector_normalize_spec (sqrt : α → α) (v : Vector α) (hv : v.shape_inv) :
    (vector_normalize sqrt (some v) = none ↔
      vector_magnitude sqrt (some v) < 1 / 10000000000) ∧
    (¬ vector_magnitude sqrt (some v) < 1 / 10000000000 →
      vector_normalize sqrt (some v)
          = vector_scale (some v) (1 / vector_magnitude sqrt (some v)) ∧
      ∃ r : Vector α, vector_normalize sqrt (some v) = some r ∧
        r.size = v.size ∧ r.shape_inv ∧
        ∀ i, i < v.size →
          ∃ x, v.data[i]? = some x ∧
            r.data[i]? = some (x * (1 / vector_magnitude sqrt (some v)))) := by
  obtain ⟨r, hr, hsize, hlen, hel⟩ :=
    vector_scale_elems v (1 / vector_magnitude sqrt (some v))
  rw [vector_normalize_eq]
  by_cases h : vector_magnitude sqrt (some v) < 1 / 10000000000
  · rw [if_pos h]
    exact ⟨⟨fun _ => h, fun _ => rfl⟩, fun h' => absurd h h'⟩
  · rw [if_neg h, hr]
    refine ⟨⟨fun e => Option.noConfusion e, fun h' => absurd h' h⟩, fun _ => ⟨rfl, r, rfl, hsize, ?_,
      fun i hi => ?_⟩⟩
    · rw [Vector.shape_inv, hlen, hsize]
    · have hi' : i < v.data.length := by rw [hv]; exact hi
      exact ⟨load v.data i, getElem?_eq_load hi', hel i hi⟩

theorem vector_magnitude_three_four :
    vector_magnitude Real.sqrt (some (⟨[3, 4, 0], 3⟩ : Vector ℝ)) = 5 := by
  rw [vector_magnitude_sum]
  norm_num [Finset.sum_range_succ, load]
  rw [show (25 : ℝ) = 5 ^ 2 by norm_num]
  exact Real.sqrt_sq (by norm_num)

theorem vector_magnitude_zero :
    vector_magnitude Real.sqrt (some (⟨[0, 0, 0], 3⟩ : Vector ℝ)) = 0 := by
  rw [vector_magnitude_sum]
  norm_num [Finset.sum_range_succ, load]

/-- C9 over the reals with the real square root: `[3,4,0]` has magnitude 5 and normalizes to
`[3 * (1/5), 4 * (1/5), 0 * (1/5)]`, and the zero vector normalizes to the absent result. -/
theorem vector_normalize_spec_witness :
    (∃ r : Vector ℝ, vector_normalize Real.sqrt (some ⟨[3, 4, 0], 3⟩) = some r ∧ r.size = 3 ∧
      r.data[0]? = some (3 * (1 / 5)) ∧ r.data[1]? = some (4 * (1 / 5)) ∧
      r.data[2]? = some (0 * (1 / 5))) ∧
    vector_normalize Real.sqrt (some (⟨[0, 0, 0], 3⟩ : Vector ℝ)) = none := by
  constructor
  · obtain ⟨-, r, hr, hsize, -, hel⟩ :=
      (vector_normalize_spec Real.sqrt (⟨[3, 4, 0], 3⟩ : Vector ℝ) rfl).2
        (by rw [vector_magnitude_three_four]; norm_num)
    obtain ⟨x0, hx0, e0⟩ := hel 0 (by norm_num)
    obtain ⟨x1, hx1, e1⟩ := hel 1 (by norm_num)
    obtain ⟨x2, hx2, e2⟩ := hel 2 (by norm_num)
    simp only [List.getElem?_cons_zero, List.getElem?_cons_succ, Option.some.injEq] at hx0 hx1 hx2
    subst hx0 hx1 hx2
    rw [vector_magnitude_three_four] at e0 e1 e2
    exact ⟨r, hr, hsize, e0, e1, e2⟩
  · exact (vector_normalize_spec Real.sqrt (⟨[0, 0, 0], 3⟩ : Vector ℝ) rfl).1.mpr
      (by rw [vector_magnitude_zero]; norm_num)

theorem sqrt_one_of_law (sqrt : α → α)
    (hsqrt : ∀ x, 0 ≤ x → 0 ≤ sqrt x ∧ sqrt x * sqrt x = x) : sqrt 1 = 1 := by
  obtain ⟨h0, h1⟩ := hsqrt 1 zero_le_one
  have h2 : (sqrt 1 - 1) * (sqrt 1 + 1) = 0 := by ring_nf; rw [pow_two, h1]; ring
  rcases mul_eq_zero.mp h2 with h | h
  · exact sub_eq_zero.mp h
  · exfalso; linarith

/-- C10. Normalizing gives a unit vector: when `sqrt` is the non-negative square root and
`vector_magnitude v >= 1e-10`, `vector_normalize v` is present and its magnitude is exactly 1,
so it differs from 1 by less than `1e-6`. -/
theorem vector_normalize_unit (sqrt : α → α)
    (hsqrt : ∀ x, 0 ≤ x → 0 ≤ sqrt x ∧ sqrt x * sqrt x = x)
    (v : Vector α) (hv : v.shape_inv)
    (hmag : 1 / 10000000000 ≤ vector_magnitude sqrt (some v)) :
    ∃ r : Vector α, vector_normalize sqrt (some v) = some r ∧
      vector_magnitude sqrt (some r) = 1 ∧
      utils_abs (vector_magnitude sqrt (some r) - 1) < 1 / 1000000 ∧
      utils_double_equal (vector_magnitude sqrt (some r)) 1 (1 / 1000000) = true := by
  obtain ⟨r, hr, hsize, hlen, hel⟩ :=
    vector_scale_elems v (1 / vector_magnitude sqrt (some v))
  have hpos : 0 < vector_magnitude sqrt (some v) := lt_of_lt_of_le (by norm_num) hmag
  have hS : 0 ≤ ∑ i in Finset.range v.size, load v.data i * load v.data i :=
    Finset.sum_nonneg (fun i _ => mul_self_nonneg _)
  have hsq : vector_magnitude sqrt (some v) * vector_magnitude sqrt (some v)
      = ∑ i in Finset.range v.size, load v.data i * load v.data i := by
    rw [vector_magnitude_sum]; exact (hsqrt _ hS).2
  have hnorm : vector_normalize sqrt (some v) = some r := by
    rw [vector_normalize_eq, if_neg (not_lt.mpr hmag), hr]
  have hone : vector_magnitude sqrt (some r) = 1 := by
    rw [vector_magnitude_sum, hsize]
    have hterm : ∀ i ∈ Finset.range v.size, load r.data i * load r.data i
        = (1 / vector_magnitude sqrt (some v)) * (1 / vector_magnitude sqrt (some v))
          * (load v.data i * load v.data i) := by
      intro i hi
      rw [load_of_getElem? (hel i (Finset.mem_range.mp hi))]
      ring
    rw [Finset.sum_congr rfl hterm, ← Finset.mul_sum, ← hsq]
    have hne : vector_magnitude sqrt (some v) ≠ 0 := ne_of_gt hpos
    have : 1 / vector_magnitude sqrt (some v) * (1 / vector_magnitude sqrt (some v))
        * (vector_magnitude sqrt (some v) * vector_magnitude sqrt (some v)) = 1 := by
      field_simp
    rw [this]
    exact sqrt_one_of_law sqrt hsqrt
  refine ⟨r, hnorm, hone, ?_, ?_⟩
  · rw [hone]; simp [utils_abs]
  · rw [hone]; simp [utils_double_equal, utils_abs]

/-- C10 over the reals with the real square root, at the vector `[3,4,0]` of magnitude 5. -/
theorem vector_normalize_unit_witness :
    ∃ r : Vector ℝ, vector_normalize Real.sqrt (some ⟨[3, 4, 0], 3⟩) = some r ∧
      vector_magnitude Real.sqrt (some r) = 1 ∧
      utils_abs (vector_magnitude Real.sqrt (some r) - 1) < 1 / 1000000 ∧
      utils_double_equal (vector_magnitude Real.sqrt (some r)) 1 (1 / 1000000) = true :=
  vector_normalize_unit Real.sqrt
    (fun x hx => ⟨Real.sqrt_nonneg x, Real.mul_self_sqrt hx⟩)
    ⟨[3, 4, 0], 3⟩ rfl (by rw [vector_magnitude_three_four]; norm_num)

/-! ## Shape invariant -/

/-- A doubly nested loop of stores never changes the length of the buffer. -/
theorem nested_store_length (R C : Nat) (pos : Nat → Nat → Nat) (val : Nat → Nat → α)
    (d : List α) :
    (for_range R (fun i d => for_range C (fun j d => d.set (pos i j) (val i j)) d) d).length
      = d.length := by
  refine for_range_invariant (fun _ s => s.length = d.length) R _ d rfl ?_
  intro i _ s hs
  refine for_range_invariant (fun _ t => t.length = d.length) C _ s hs ?_
  intro j _ t ht
  simpa using ht

/-- A loop of stores never changes the length of the buffer. -/
theorem single_store_length (n : Nat) (pos : Nat → Nat) (val : Nat → List α → α) (d : List α) :
    (for_range n (fun i t => t.set (pos i) (val i t)) d).length = d.length := by
  refine for_range_invariant (fun _ s => s.length = d.length) n _ d rfl ?_
  intro i _ s hs
  simpa using hs

/-- The buffer `matrix_create` hands out has `rows * cols` elements counted in `size_t`. -/
theorem matrix_create_length (rows cols : Nat) :
    ∃ m : Matrix α, matrix_create rows cols = some m ∧ m.rows = rows ∧ m.cols = cols ∧
      m.data.length = size_mul rows cols :=
  ⟨_, rfl, rfl, rfl, by simp⟩

/-- The buffer of a product has `a.rows * b.cols` elements counted in `size_t`. -/
theorem matrix_multiply_length (a b : Matrix α) (hab : a.cols = b.rows) :
    ∃ r : Matrix α, matrix_multiply (some a) (some b) = some r ∧ r.rows = a.rows ∧
      r.cols = b.cols ∧ r.data.length = size_mul a.rows b.cols := by
  have key := nested_store_length a.rows b.cols (fun i j => offset i b.cols j)
    (fun i j => for_range a.cols (fun k sum =>
      sum + load a.data (offset i a.cols k) * load b.data (offset k b.cols j)) 0)
    (List.replicate (size_mul a.rows b.cols) 0)
  have hmul : matrix_multiply (some a) (some b) = some
      { data := for_range a.rows (fun i d => for_range b.cols (fun j d =>
          d.set (offset i b.cols j) (for_range a.cols (fun k sum =>
            sum + load a.data (offset i a.cols k) * load b.data (offset k b.cols j)) 0)) d)
          (List.replicate (size_mul a.rows b.cols) 0),
        rows := a.rows, cols := b.cols } := by
    simp only [matrix_multiply, matrix_create, calloc]
    rw [if_neg (not_not.mpr hab)]
  exact ⟨_, hmul, rfl, rfl, by simpa using key⟩

/-- C11 at dimensions whose product leaves `size_t`.  `matrix_create` asked for
`2^63 + 1` rows and 2 columns returns a matrix whose buffer has 2 elements, not the
`2^64 + 2` of `rows * cols`; and the product of the `(2^63 + 1) x 0` matrix and the `0 x 2`
matrix, both with the empty buffer their shape asks for, is given a buffer of 2 elements for
the same `2^64 + 2` (the stores of the C loops then fall outside that buffer; here they do
nothing).  Neither satisfies the shape invariant. -/
theorem shape_inv_fails_on_overflow :
    (∃ m : Matrix ℚ, matrix_create 9223372036854775809 2 = some m ∧
      m.rows = 9223372036854775809 ∧ m.cols = 2 ∧ m.data.length = 2 ∧ ¬ m.shape_inv) ∧
    ((⟨[], 9223372036854775809, 0⟩ : Matrix ℚ).shape_inv ∧ (⟨[], 0, 2⟩ : Matrix ℚ).shape_inv ∧
      ∃ r : Matrix ℚ,
        matrix_multiply (some ⟨[], 9223372036854775809, 0⟩) (some ⟨[], 0, 2⟩) = some r ∧
        r.rows = 9223372036854775809 ∧ r.cols = 2 ∧ r.data.length = 2 ∧ ¬ r.shape_inv) := by
  constructor
  · obtain ⟨m, h, hr, hc, hlen⟩ := @matrix_create_length ℚ _ 9223372036854775809 2
    have hlen2 : m.data.length = 2 := by rw [hlen]; norm_num [size_mul, SIZE_MOD]
    refine ⟨m, h, hr, hc, hlen2, ?_⟩
    rw [Matrix.shape_inv, hlen2, hr, hc]
    norm_num
  · refine ⟨by simp [Matrix.shape_inv], by simp [Matrix.shape_inv], ?_⟩
    obtain ⟨r, h, hr, hc, hlen⟩ :=
      matrix_multiply_length (⟨[], 9223372036854775809, 0⟩ : Matrix ℚ) ⟨[], 0, 2⟩ rfl
    have hlen2 : r.data.length = 2 := by rw [hlen]; norm_num [size_mul, SIZE_MOD]
    refine ⟨r, h, hr, hc, hlen2, ?_⟩
    rw [Matrix.shape_inv, hlen2, hr, hc]
    norm_num

/-! ## `vector_equal`, `vector_add` -/

theorem utils_abs_eq_abs (x : α) : utils_abs x = |x| := by
  unfold utils_abs
  split_ifs with h
  · exact (abs_of_neg h).symm
  · exact (abs_of_nonneg (not_lt.mp h)).symm

/-- C12. `vector_equal` returns false when an operand is absent or the sizes differ; for
vectors of equal size it returns true exactly when `utils_double_equal (a[i], b[i], epsilon)`
holds at every index `i < size`; and `utils_double_equal (x, y, epsilon)` holds exactly when
`utils_abs (x - y) < epsilon`, strictly, where `utils_abs` is the absolute value. -/
theorem vector_equal_spec :
    (∀ (b : Option (Vector α)) (epsilon : α), vector_equal none b epsilon = false) ∧
    (∀ (a : Option (Vector α)) (epsilon : α), vector_equal a none epsilon = false) ∧
    (∀ (a b : Vector α) (epsilon : α), a.size ≠ b.size →
      vector_equal (some a) (some b) epsilon = false) ∧
    (∀ (a b : Vector α) (epsilon : α), a.shape_inv → b.shape_inv → a.size = b.size →
      (vector_equal (some a) (some b) epsilon = true ↔
        ∀ i, i < a.size → utils_double_equal (load a.data i) (load b.data i) epsilon = true)) ∧
    (∀ x y epsilon : α, utils_double_equal x y epsilon = true ↔ utils_abs (x - y) < epsilon) ∧
    (∀ x : α, utils_abs x = |x|) ∧
    utils_double_equal (0 : ℚ) 1 1 = false := by
  refine ⟨fun b e => ?_, fun a e => ?_, fun a b e h => ?_, fun a b e _ _ h => ?_,
    fun x y e => ?_, utils_abs_eq_abs, ?_⟩
  · cases b <;> rfl
  · cases a <;> rfl
  · simp only [vector_equal]; rw [if_pos h]
  · simp only [vector_equal]
    rw [if_neg (not_not.mpr h), List.all_eq_true]
    exact ⟨fun hall i hi => hall i (List.mem_range.mpr hi),
      fun hall i hi => hall i (List.mem_range.mp hi)⟩
  · simp [utils_double_equal]
  · norm_num [utils_double_equal, utils_abs]

/-- C12 at concrete vectors over the rationals: `[1,2,3]` against `[1,2,3]` within `1/1000000`
at every index, `[1,2]` against `[1,2,3]` rejected for the sizes. -/
theorem vector_equal_spec_witness :
    (vector_equal (some (⟨[1, 2, 3], 3⟩ : Vector ℚ)) (some ⟨[1, 2, 3], 3⟩) (1 / 1000000) = true ↔
      ∀ i, i < 3 →
        utils_double_equal (load [(1 : ℚ), 2, 3] i) (load [(1 : ℚ), 2, 3] i) (1 / 1000000) = true) ∧
    vector_equal (some (⟨[1, 2], 2⟩ : Vector ℚ)) (some ⟨[1, 2, 3], 3⟩) (1 / 1000000) = false :=
  ⟨(@vector_equal_spec ℚ _).2.2.2.1 ⟨[1, 2, 3], 3⟩ ⟨[1, 2, 3], 3⟩ (1 / 1000000) rfl rfl rfl,
    (@vector_equal_spec ℚ _).2.2.1 ⟨[1, 2], 2⟩ ⟨[1, 2, 3], 3⟩ (1 / 1000000) (by decide)⟩

theorem vector_add_elems (a b : Vector α) (h : a.size = b.size) :
    ∃ r : Vector α, vector_add (some a) (some b) = some r ∧ r.size = a.size ∧
      r.data.length = a.size ∧
      ∀ i, i < a.size → r.data[i]? = some (load a.data i + load b.data i) := by
  have key := single_update a.size (fun i _ => load a.data i + load b.data i)
    (List.replicate a.size 0) (by simp)
  have hadd : vector_add (some a) (some b) = some
      { data := for_range a.size (fun i d => d.set i (load a.data i + load b.data i))
          (List.replicate a.size 0),
        size := a.size } := by
    simp only [vector_add, vector_create, calloc]
    rw [if_neg (not_not.mpr h)]
  exact ⟨_, hadd, rfl, by simpa using key.1, fun i hi => key.2.1 i hi⟩

/-- C17. For present vectors `a` and `b` that satisfy the shape invariant (allocation
succeeding), `vector_add` returns absent when the sizes differ, and otherwise a new vector of
size `a.size` whose element `i` is `a[i] + b[i]` for every `i < a.size`. -/
theorem vector_add_spec (a b : Vector α) (ha : a.shape_inv) (hb : b.shape_inv) :
    (a.size ≠ b.size → vector_add (some a) (some b) = none) ∧
    (a.size = b.size →
      ∃ r : Vector α, vector_add (some a) (some b) = some r ∧ r.size = a.size ∧ r.shape_inv ∧
        ∀ i, i < a.size →
          ∃ x y, a.data[i]? = some x ∧ b.data[i]? = some y ∧ r.data[i]? = some (x + y)) := by
  refine ⟨fun h => by simp only [vector_add]; rw [if_pos h], fun h => ?_⟩
  obtain ⟨r, hr, hsize, hlen, hel⟩ := vector_add_elems a b h
  refine ⟨r, hr, hsize, by rw [Vector.shape_inv, hlen, hsize], fun i hi => ?_⟩
  have hia : i < a.data.length := by rw [ha]; exact hi
  have hib : i < b.data.length := by rw [hb, ← h]; exact hi
  exact ⟨load a.data i, load b.data i, getElem?_eq_load hia, getElem?_eq_load hib, hel i hi⟩

/-- C17, the test of `test_vector_add`: `[1,2,3] + [4,5,6]` is `[5,7,9]`, read off the general
statement; and vectors of sizes 2 and 3 give the absent result. -/
theorem vector_add_spec_witness :
    (∃ r : Vector ℚ, vector_add (some ⟨[1, 2, 3], 3⟩) (some ⟨[4, 5, 6], 3⟩) = some r ∧
      r.size = 3 ∧ r.data = [5, 7, 9]) ∧
    vector_add (some (⟨[1, 2], 2⟩ : Vector ℚ)) (some ⟨[4, 5, 6], 3⟩) = none := by
  constructor
  · obtain ⟨r, h, hsize, hshape, hel⟩ := (vector_add_spec (⟨[1, 2, 3], 3⟩ : Vector ℚ)
      ⟨[4, 5, 6], 3⟩ rfl rfl).2 rfl
    obtain ⟨x0, y0, hx0, hy0, e0⟩ := hel 0 (by norm_num)
    obtain ⟨x1, y1, hx1, hy1, e1⟩ := hel 1 (by norm_num)
    obtain ⟨x2, y2, hx2, hy2, e2⟩ := hel 2 (by norm_num)
    simp only [List.getElem?_cons_zero, List.getElem?_cons_succ, Option.some.injEq]
      at hx0 hy0 hx1 hy1 hx2 hy2
    subst hx0 hy0 hx1 hy1 hx2 hy2
    norm_num at e0 e1 e2
    refine ⟨r, h, hsize, ?_⟩
    have hl : r.data.length = 3 := hshape.trans hsize
    apply List.ext_getElem?
    intro i
    rcases i with _ | _ | _ | i
    · simpa using e0
    · simpa using e1
    · simpa using e2
    · have : r.data.length ≤ i + 3 := by rw [hl]; omega
      simp [List.getElem?_eq_none this]
  · exact (vector_add_spec (⟨[1, 2], 2⟩ : Vector ℚ) ⟨[4, 5, 6], 3⟩ rfl rfl).1 (by decide)

/-- The test of `test_vector_add`, by running the function. -/
theorem vector_add_example :
    vector_add (some (⟨[1, 2, 3], 3⟩ : Vector ℚ)) (some ⟨[4, 5, 6], 3⟩)
      = some ⟨[5, 7, 9], 3⟩ := by
  simp [vector_add, vector_create, calloc, for_range, load, List.range_succ]
  norm_num

/-! ## `vector_magnitude` -/

/-- C16. For a present vector `v`, when `sqrt` is the non-negative square root,
`vector_magnitude v` is the Euclidean norm: it is `sqrt` of the sum over `i < v.size` of
`v[i]^2`, it is non-negative, and its square is that sum, which is `vector_dot (v, v)`. -/
theorem vector_magnitude_spec (sqrt : α → α)
    (hsqrt : ∀ x, 0 ≤ x → 0 ≤ sqrt x ∧ sqrt x * sqrt x = x)
    (v : Vector α) (hv : v.shape_inv) :
    vector_magnitude sqrt (some v) = sqrt (∑ i in Finset.range v.size, load v.data i ^ 2) ∧
    0 ≤ vector_magnitude sqrt (some v) ∧
    vector_magnitude sqrt (some v) ^ 2 = ∑ i in Finset.range v.size, load v.data i ^ 2 ∧
    vector_magnitude sqrt (some v) ^ 2 = vector_dot (some v) (some v) := by
  have hsum : ∑ i in Finset.range v.size, load v.data i * load v.data i
      = ∑ i in Finset.range v.size, load v.data i ^ 2 :=
    Finset.sum_congr rfl (fun i _ => (pow_two _).symm)
  have hS : 0 ≤ ∑ i in Finset.range v.size, load v.data i ^ 2 :=
    Finset.sum_nonneg (fun i _ => sq_nonneg _)
  have hmag := vector_magnitude_sum sqrt v
  rw [hsum] at hmag
  obtain ⟨h0, h1⟩ := hsqrt _ hS
  refine ⟨hmag, by rw [hmag]; exact h0, by rw [hmag, pow_two]; exact h1, ?_⟩
  rw [vector_dot_sum v v rfl, hsum, hmag, pow_two]
  exact h1

/-- C16, the test of `test_vector_magnitude`: over the reals with the real square root the
magnitude of `[3,4,0]` is 5, read off the general statement (it is non-negative and its square
is `9 + 16 + 0`). -/
theorem vector_magnitude_spec_witness :
    vector_magnitude Real.sqrt (some (⟨[3, 4, 0], 3⟩ : Vector ℝ)) = 5 := by
  obtain ⟨-, h0, h2, -⟩ := vector_magnitude_spec Real.sqrt
    (fun x hx => ⟨Real.sqrt_nonneg x, Real.mul_self_sqrt hx⟩) (⟨[3, 4, 0], 3⟩ : Vector ℝ) rfl
  norm_num [Finset.sum_range_succ, load] at h2
  nlinarith [h0, h2]

/-! ## `stats_mean`, `stats_variance` -/

theorem sum_range_load (d : List α) : ∑ i in Finset.range d.length, load d i = d.sum := by
  induction d with
  | nil => simp
  | cons x xs ih =>
    rw [List.length_cons, Finset.sum_range_succ', List.sum_cons, ← ih, add_comm]
    congr 1

theorem stats_mean_sum (d : List α) (n : Nat) (hn : 0 < n) :
    stats_mean (some d) n = (∑ i in Finset.range n, load d i) / (n : α) := by
  simp only [stats_mean]
  rw [if_neg (Nat.pos_iff_ne_zero.mp hn), for_range_sum]

/-- C19. `stats_mean` returns 0 for `n = 0` (and for an absent array); for a non-empty array of
`n` doubles it returns the sum of the elements, accumulated from 0 in index order, divided by
`n`; the mean of `[1,2,3,4,5]` is 3. -/
theorem stats_mean_spec :
    (∀ n : Nat, stats_mean (none : Option (List α)) n = 0) ∧
    (∀ d : List α, stats_mean (some d) 0 = 0) ∧
    (∀ (d : List α) (n : Nat), 0 < n → d.length = n →
      stats_mean (some d) n
          = (List.range n).foldl (fun sum i => sum + load d i) 0 / (n : α) ∧
      stats_mean (some d) n = (∑ i in Finset.range n, load d i) / (n : α) ∧
      stats_mean (some d) n = d.sum / (n : α)) ∧
    stats_mean (some [(1 : ℚ), 2, 3, 4, 5]) 5 = 3 := by
  refine ⟨fun n => rfl, fun d => by simp [stats_mean], fun d n hn hlen => ⟨?_, ?_, ?_⟩, ?_⟩
  · simp only [stats_mean]
    rw [if_neg (Nat.pos_iff_ne_zero.mp hn)]
    rfl
  · exact stats_mean_sum d n hn
  · rw [stats_mean_sum d n hn, ← hlen, sum_range_load]
  · rw [stats_mean_sum _ _ (by norm_num)]
    norm_num [Finset.sum_range_succ, load]

/-- C19 at the array of `test_stats_mean`: the mean of `[1,2,3,4,5]` is the list sum over 5. -/
theorem stats_mean_spec_witness :
    stats_mean (some [(1 : ℚ), 2, 3, 4, 5]) 5 = [(1 : ℚ), 2, 3, 4, 5].sum / ((5 : Nat) : ℚ) :=
  ((@stats_mean_spec ℚ _).2.2.1 [1, 2, 3, 4, 5] 5 (by norm_num) rfl).2.2

theorem stats_variance_sum (d : List α) (n : Nat) (hn : 0 < n) :
    stats_variance (some d) n
      = (∑ i in Finset.range n, (load d i - stats_mean (some d) n) ^ 2) / (n : α) := by
  simp only [stats_variance]
  rw [if_neg (Nat.pos_iff_ne_zero.mp hn), for_range_sum]
  congr 1
  exact Finset.sum_congr rfl (fun i _ => (pow_two _).symm)

/-- C15. For a non-empty array of `n` doubles `stats_variance` returns the population variance:
the sum over `i` of `(data[i] - mean)^2` divided by `n` (not `n - 1`), with `mean` the value of
`stats_mean`, that is the sum of the elements over `n`. -/
theorem stats_variance_spec (d : List α) (n : Nat) (hn : 0 < n) (hlen : d.length = n) :
    stats_variance (some d) n
        = (∑ i in Finset.range n, (load d i - stats_mean (some d) n) ^ 2) / (n : α) ∧
      stats_mean (some d) n = d.sum / (n : α) := by
  refine ⟨stats_variance_sum d n hn, ?_⟩
  rw [stats_mean_sum d n hn, ← hlen, sum_range_load]

/-- C15, the test of `test_stats_variance`: the variance of `[2,4,4,4,5,5,7,9]` is 4 (mean 5,
squared deviations summing to 32, divided by 8), read off the general statement. -/
theorem stats_variance_spec_witness :
    stats_variance (some [(2 : ℚ), 4, 4, 4, 5, 5, 7, 9]) 8 = 4 := by
  obtain ⟨hv, hm⟩ := stats_variance_spec [(2 : ℚ), 4, 4, 4, 5, 5, 7, 9] 8 (by norm_num) rfl
  rw [hv, hm]
  norm_num [Finset.sum_range_succ, load]

/-! ## `stats_min`, `stats_max` -/

theorem for_range_from_eq {σ : Type} (start n : Nat) (body : Nat → σ → σ) (init : σ) :
    for_range_from start n body init = for_range (n - start) (fun k s => body (start + k) s) init := by
  simp only [for_range_from, for_range, List.range'_eq_map_range, List.foldl_map]

/-- Loop rule for a loop that starts at `start`. -/
theorem for_range_from_invariant {σ : Type} (P : Nat → σ → Prop) (start n : Nat)
    (body : Nat → σ → σ) (init : σ) (hle : start ≤ n) (h0 : P start init)
    (hstep : ∀ i, start ≤ i → i < n → ∀ s, P i s → P (i + 1) (body i s)) :
    P n (for_range_from start n body init) := by
  rw [for_range_from_eq]
  have key := for_range_invariant (fun k s => P (start + k) s) (n - start)
    (fun k s => body (start + k) s) init h0
    (fun k hk s hs => hstep (start + k) (Nat.le_add_right _ _) (by omega) s hs)
  have e : start + (n - start) = n := by omega
  have key' : P (start + (n - start)) (for_range (n - start) (fun k s => body (start + k) s) init) :=
    key
  rw [e] at key'
  exact key'

theorem mem_iff_load {d : List α} {x : α} : x ∈ d ↔ ∃ k, k < d.length ∧ x = load d k := by
  constructor
  · intro h
    obtain ⟨k, hk, e⟩ := List.getElem_of_mem h
    exact ⟨k, hk, by rw [load_of_getElem? ((List.getElem?_eq_getElem hk).trans (congrArg some e))]⟩
  · rintro ⟨k, hk, rfl⟩
    have := getElem?_eq_load hk
    rw [List.getElem?_eq_getElem hk] at this
    rw [← Option.some.inj this]
    exact List.getElem_mem hk

theorem stats_min_bounds (d : List α) (n : Nat) (hn : 0 < n) :
    (∃ k, k < n ∧ stats_min (some d) n = load d k) ∧
      ∀ k, k < n → stats_min (some d) n ≤ load d k := by
  simp only [stats_min]
  rw [if_neg (Nat.pos_iff_ne_zero.mp hn)]
  refine for_range_from_invariant
    (fun i m => (∃ k, k < i ∧ m = load d k) ∧ ∀ k, k < i → m ≤ load d k) 1 n _ _ hn
    ⟨⟨0, Nat.one_pos, rfl⟩, fun k hk => by rw [Nat.lt_one_iff.mp hk]⟩ ?_
  rintro i _ _ m ⟨⟨k, hk, hm⟩, hall⟩
  by_cases h : load d i < m
  · rw [if_pos h]
    refine ⟨⟨i, Nat.lt_succ_self i, rfl⟩, fun k' hk' => ?_⟩
    rcases Nat.lt_succ_iff_lt_or_eq.mp hk' with h' | h'
    · exact le_trans (le_of_lt h) (hall k' h')
    · rw [h']
  · rw [if_neg h]
    refine ⟨⟨k, Nat.lt_succ_of_lt hk, hm⟩, fun k' hk' => ?_⟩
    rcases Nat.lt_succ_iff_lt_or_eq.mp hk' with h' | h'
    · exact hall k' h'
    · rw [h']; exact not_lt.mp h

theorem stats_max_bounds (d : List α) (n : Nat) (hn : 0 < n) :
    (∃ k, k < n ∧ stats_max (some d) n = load d k) ∧
      ∀ k, k < n → load d k ≤ stats_max (some d) n := by
  simp only [stats_max]
  rw [if_neg (Nat.pos_iff_ne_zero.mp hn)]
  refine for_range_from_invariant
    (fun i m => (∃ k, k < i ∧ m = load d k) ∧ ∀ k, k < i → load d k ≤ m) 1 n _ _ hn
    ⟨⟨0, Nat.one_pos, rfl⟩, fun k hk => by rw [Nat.lt_one_iff.mp hk]⟩ ?_
  rintro i _ _ m ⟨⟨k, hk, hm⟩, hall⟩
  by_cases h : load d i > m
  · rw [if_pos h]
    refine ⟨⟨i, Nat.lt_succ_self i, rfl⟩, fun k' hk' => ?_⟩
    rcases Nat.lt_succ_iff_lt_or_eq.mp hk' with h' | h'
    · exact le_trans (hall k' h') (le_of_lt h)
    · rw [h']
  · rw [if_neg h]
    refine ⟨⟨k, Nat.lt_succ_of_lt hk, hm⟩, fun k' hk' => ?_⟩
    rcases Nat.lt_succ_iff_lt_or_eq.mp hk' with h' | h'
    · exact hall k' h'
    · rw [h']; exact not_lt.mp h

/-- C18. For a non-empty array of `n` doubles, `stats_min` returns a value that occurs in the
array and is less than or equal to every element, and `stats_max` returns a value that occurs
in the array and is greater than or equal to every element. -/
theorem stats_min_max_spec (d : List α) (n : Nat) (hn : 0 < n) (hlen : d.length = n) :
    stats_min (some d) n ∈ d ∧ (∀ x, x ∈ d → stats_min (some d) n ≤ x) ∧
    stats_max (some d) n ∈ d ∧ (∀ x, x ∈ d → x ≤ stats_max (some d) n) := by
  obtain ⟨⟨k, hk, hmin⟩, hminle⟩ := stats_min_bounds d n hn
  obtain ⟨⟨k', hk', hmax⟩, hmaxle⟩ := stats_max_bounds d n hn
  refine ⟨mem_iff_load.mpr ⟨k, by omega, hmin⟩, fun x hx => ?_,
    mem_iff_load.mpr ⟨k', by omega, hmax⟩, fun x hx => ?_⟩
  · obtain ⟨j, hj, rfl⟩ := mem_iff_load.mp hx
    exact hminle j (by omega)
  · obtain ⟨j, hj, rfl⟩ := mem_iff_load.mp hx
    exact hmaxle j (by omega)

/-- C18, the test of `test_stats_min_max`: for `[5,2,8,1,9]` the minimum is 1 and the maximum
is 9, read off the general statement. -/
theorem stats_min_max_spec_witness :
    stats_min (some [(5 : ℚ), 2, 8, 1, 9]) 5 = 1 ∧ stats_max (some [(5 : ℚ), 2, 8, 1, 9]) 5 = 9 := by
  obtain ⟨hmin, hminle, hmax, hmaxle⟩ :=
    stats_min_max_spec [(5 : ℚ), 2, 8, 1, 9] 5 (by norm_num) rfl
  have h1 := hminle 1 (by simp)
  have h9 := hmaxle 9 (by simp)
  simp only [List.mem_cons, List.mem_singleton, List.not_mem_nil, or_false] at hmin hmax
  constructor
  · rcases hmin with h | h | h | h | h <;> rw [h] at h1 ⊢ <;> norm_num at h1 ⊢
  · rcases hmax with h | h | h | h | h <;> rw [h] at h9 ⊢ <;> norm_num at h9 ⊢

/-- The test of `test_stats_min_max`, by running the functions. -/
theorem stats_min_max_example :
    stats_min (some [(5 : ℚ), 2, 8, 1, 9]) 5 = 1 ∧ stats_max (some [(5 : ℚ), 2, 8, 1, 9]) 5 = 9 := by
  constructor
  · norm_num [stats_min, for_range_from, load, List.range']
  · norm_num [stats_max, for_range_from, load, List.range']

/-! ## `stats_sort`, `stats_median` -/

theorem compare_doubles_le (x y : α) : compare_doubles x y ≤ 0 ↔ x ≤ y := by
  unfold compare_doubles
  by_cases h1 : x - y < 0
  · simp only [h1, if_true]
    exact ⟨fun _ => le_of_lt (sub_neg.mp h1), fun _ => by decide⟩
  · by_cases h2 : x - y > 0
    · simp only [h1, h2, if_true, if_false]
      exact ⟨fun h => absurd h (by decide), fun h => absurd (sub_pos.mp h2) (not_lt.mpr h)⟩
    · simp only [h1, h2, if_false]
      exact ⟨fun _ => sub_nonpos.mp (not_lt.mp h2), fun _ => le_refl _⟩

/-- On a buffer of exactly `n` elements `qsort` with `compare_doubles` leaves an ascending
rearrangement of the buffer. -/
theorem qsort_sorted_perm (d : List α) (n : Nat) (hlen : d.length = n) :
    (qsort d n compare_doubles).Perm d ∧ (qsort d n compare_doubles).Sorted (fun x y => x ≤ y) := by
  haveI : IsTotal α (fun x y => compare_doubles x y ≤ 0) :=
    ⟨fun a b => by simp only [compare_doubles_le]; exact le_total a b⟩
  haveI : IsTrans α (fun x y => compare_doubles x y ≤ 0) :=
    ⟨fun a b c => by simp only [compare_doubles_le]; exact le_trans⟩
  have htake : d.take n = d := by rw [← hlen]; exact List.take_length d
  have hdrop : d.drop n = [] := by rw [← hlen]; exact List.drop_length d
  have hq : qsort d n compare_doubles
      = d.insertionSort (fun x y => compare_doubles x y ≤ 0) := by
    rw [qsort, htake, hdrop, List.append_nil]
  rw [hq]
  exact ⟨List.perm_insertionSort _ d,
    (List.sorted_insertionSort (fun x y => compare_doubles x y ≤ 0) d).imp
      (fun {a b} h => (compare_doubles_le a b).mp h)⟩

theorem stats_sort_eq (heap : List (List α)) (p : Nat) (d : List α) (n : Nat)
    (hp : heap[p]? = some d) (hn : 0 < n) :
    stats_sort heap (some p) n = heap.set p (qsort d n compare_doubles) := by
  simp only [stats_sort, hp]
  rw [if_neg (Nat.pos_iff_ne_zero.mp hn)]

theorem eraseIdx_append_singleton {β : Type} (l : List β) (x : β) :
    (l ++ [x]).eraseIdx l.length = l := by
  induction l with
  | nil => rfl
  | cons y ys ih => simp only [List.cons_append, List.length_cons, List.eraseIdx_cons_succ, ih]

theorem stats_median_eq (heap : List (List α)) (p : Nat) (d : List α) (n : Nat)
    (hp : heap[p]? = some d) (hn : 0 < n) :
    stats_median heap (some p) n =
      (if n % 2 = 0 then
          (load (qsort (d.take n) n compare_doubles) (n / 2 - 1)
            + load (qsort (d.take n) n compare_doubles) (n / 2)) / 2
        else load (qsort (d.take n) n compare_doubles) (n / 2), heap) := by
  have h1 : (heap ++ [d.take n])[heap.length]? = some (d.take n) := by simp
  have h2 : stats_sort (heap ++ [d.take n]) (some heap.length) n
      = heap ++ [qsort (d.take n) n compare_doubles] := by
    rw [stats_sort_eq _ _ _ _ h1 hn]
    simp
  simp only [stats_median, hp]
  rw [if_neg (Nat.pos_iff_ne_zero.mp hn), h2, eraseIdx_append_singleton]
  simp

/-- C14. For a non-empty array of `n` doubles at address `p`, with `s` its ascending-sorted
copy: `stats_median` returns `s[n/2]` when `n` is odd and the average of `s[n/2 - 1]` and
`s[n/2]` when `n` is even, and leaves the caller's memory, the array included, as it was;
`stats_sort` puts `s` in the place of the array. -/
theorem stats_median_spec (heap : List (List α)) (p : Nat) (d : List α) (n : Nat)
    (hp : heap[p]? = some d) (hn : 0 < n) (hlen : d.length = n) :
    ∃ s : List α, s.Perm d ∧ s.Sorted (fun x y => x ≤ y) ∧
      (n % 2 = 1 → (stats_median heap (some p) n).1 = load s (n / 2)) ∧
      (n % 2 = 0 → (stats_median heap (some p) n).1 = (load s (n / 2 - 1) + load s (n / 2)) / 2) ∧
      (stats_median heap (some p) n).2 = heap ∧
      (stats_median heap (some p) n).2[p]? = some d ∧
      stats_sort heap (some p) n = heap.set p s := by
  have htake : d.take n = d := by rw [← hlen]; exact List.take_length d
  obtain ⟨hperm, hsorted⟩ := qsort_sorted_perm d n hlen
  refine ⟨qsort d n compare_doubles, hperm, hsorted, fun hodd => ?_, fun heven => ?_, ?_, ?_,
    stats_sort_eq heap p d n hp hn⟩
  · rw [stats_median_eq heap p d n hp hn, htake, if_neg (by omega)]
  · rw [stats_median_eq heap p d n hp hn, htake, if_pos heven]
  · rw [stats_median_eq heap p d n hp hn]
  · rw [stats_median_eq heap p d n hp hn]; exact hp

/-- C14, the tests of `test_stats_median`: the median of `[1,3,5,7,9]` is 5 and the median of
`[1,2,3,4]` is 2.5, read off the general statement, and both arrays are left as they were. -/
theorem stats_median_spec_witness :
    stats_median [[(1 : ℚ), 3, 5, 7, 9]] (some 0) 5 = (5, [[1, 3, 5, 7, 9]]) ∧
    stats_median [[(1 : ℚ), 2, 3, 4]] (some 0) 4 = (5 / 2, [[1, 2, 3, 4]]) := by
  constructor
  · obtain ⟨s, hperm, hsorted, hodd, -, hheap, -, -⟩ :=
      stats_median_spec [[(1 : ℚ), 3, 5, 7, 9]] 0 [1, 3, 5, 7, 9] 5 rfl (by norm_num) rfl
    have hs : s = [1, 3, 5, 7, 9] :=
      List.eq_of_perm_of_sorted hperm hsorted (by norm_num [List.Sorted])
    rw [hs] at hodd
    have h1 := hodd (by norm_num)
    norm_num [load] at h1
    exact Prod.ext h1 hheap
  · obtain ⟨s, hperm, hsorted, -, heven, hheap, -, -⟩ :=
      stats_median_spec [[(1 : ℚ), 2, 3, 4]] 0 [1, 2, 3, 4] 4 rfl (by norm_num) rfl
    have hs : s = [1, 2, 3, 4] :=
      List.eq_of_perm_of_sorted hperm hsorted (by norm_num [List.Sorted])
    rw [hs] at heven
    have h1 := heven (by norm_num)
    norm_num [load] at h1
    exact Prod.ext h1 hheap

/-- The functions `stats_median` and `stats_sort` run on the array `[9,3,5,7,1]`: the median
is 5 and the array is left as it was, while `stats_sort` leaves `[1,3,5,7,9]` in its place. -/
theorem stats_median_example :
    stats_median [[(9 : ℚ), 3, 5, 7, 1]] (some 0) 5 = (5, [[9, 3, 5, 7, 1]]) ∧
    stats_sort [[(9 : ℚ), 3, 5, 7, 1]] (some 0) 5 = [[1, 3, 5, 7, 9]] := by
  constructor
  · norm_num [stats_median, stats_sort, qsort, compare_doubles, load, List.insertionSort,
      List.orderedInsert]
  · norm_num [stats_sort, qsort, compare_doubles, List.insertionSort, List.orderedInsert]

/-! ## `stats_correlation` -/

/-- Three accumulations carried by one loop are three finite sums. -/
theorem for_range_sum3 (n : Nat) (f g h : Nat → α) :
    for_range n (fun i (s : α × α × α) => (s.1 + f i, s.2.1 + g i, s.2.2 + h i)) (0, 0, 0)
      = (∑ i in Finset.range n, f i, ∑ i in Finset.range n, g i, ∑ i in Finset.range n, h i) := by
  induction n with
  | zero => simp [for_range_zero]
  | succ k ih => rw [for_range_succ, ih]; simp only [Finset.sum_range_succ]

theorem stats_correlation_eq (sqrt : α → α) (x y : List α) (n : Nat) (hn : 0 < n) :
    stats_correlation sqrt (some x) (some y) n =
      if sqrt ((∑ i in Finset.range n, (load x i - stats_mean (some x) n) ^ 2)
            * (∑ i in Finset.range n, (load y i - stats_mean (some y) n) ^ 2)) < 1 / 10000000000
      then 0
      else (∑ i in Finset.range n,
              (load x i - stats_mean (some x) n) * (load y i - stats_mean (some y) n))
            / sqrt ((∑ i in Finset.range n, (load x i - stats_mean (some x) n) ^ 2)
              * (∑ i in Finset.range n, (load y i - stats_mean (some y) n) ^ 2)) := by
  have hloop := for_range_sum3 n
    (fun i => (load x i - stats_mean (some x) n) * (load y i - stats_mean (some y) n))
    (fun i => (load x i - stats_mean (some x) n) * (load x i - stats_mean (some x) n))
    (fun i => (load y i - stats_mean (some y) n) * (load y i - stats_mean (some y) n))
  simp only [stats_correlation]
  rw [if_neg (Nat.pos_iff_ne_zero.mp hn)]
  simp only [hloop, pow_two]

/-- For the non-negative square root, `sqrt p < e` says `p < e * e`. -/
theorem sqrt_lt_iff_of_law (sqrt : α → α)
    (hsqrt : ∀ x, 0 ≤ x → 0 ≤ sqrt x ∧ sqrt x * sqrt x = x) (p e : α) (hp : 0 ≤ p) (he : 0 < e) :
    sqrt p < e ↔ p < e * e := by
  obtain ⟨h0, h1⟩ := hsqrt p hp
  constructor
  · intro h
    calc p = sqrt p * sqrt p := h1.symm
      _ < e * e := mul_lt_mul'' h h h0 h0
  · intro h
    by_contra hge
    have hge' : e ≤ sqrt p := not_lt.mp hge
    have : e * e ≤ sqrt p * sqrt p := mul_le_mul hge' hge' (le_of_lt he) h0
    rw [h1] at this
    exact absurd h (not_lt.mpr this)

/-- C13 as the code has it.  For arrays of `n` doubles `stats_correlation` returns 0 when the
square root of the product of the two sums of squared deviations is below `1e-10` (and when
`n = 0`), and otherwise the sum of the products of the deviations divided by that square root;
for the non-negative square root the guard says that the product itself is below `1e-20`. -/
theorem stats_correlation_spec (sqrt : α → α) (x y : List α) (n : Nat)
    (hx : x.length = n) (hy : y.length = n) :
    (sqrt ((∑ i in Finset.range n, (load x i - stats_mean (some x) n) ^ 2)
          * (∑ i in Finset.range n, (load y i - stats_mean (some y) n) ^ 2)) < 1 / 10000000000 →
      stats_correlation sqrt (some x) (some y) n = 0) ∧
    (0 < n →
      ¬ sqrt ((∑ i in Finset.range n, (load x i - stats_mean (some x) n) ^ 2)
          * (∑ i in Finset.range n, (load y i - stats_mean (some y) n) ^ 2)) < 1 / 10000000000 →
      stats_correlation sqrt (some x) (some y) n
        = (∑ i in Finset.range n,
              (load x i - stats_mean (some x) n) * (load y i - stats_mean (some y) n))
            / sqrt ((∑ i in Finset.range n, (load x i - stats_mean (some x) n) ^ 2)
              * (∑ i in Finset.range n, (load y i - stats_mean (some y) n) ^ 2))) ∧
    (n = 0 → stats_correlation sqrt (some x) (some y) n = 0) ∧
    ((∀ t, 0 ≤ t → 0 ≤ sqrt t ∧ sqrt t * sqrt t = t) →
      (sqrt ((∑ i in Finset.range n, (load x i - stats_mean (some x) n) ^ 2)
          * (∑ i in Finset.range n, (load y i - stats_mean (some y) n) ^ 2)) < 1 / 10000000000 ↔
        (∑ i in Finset.range n, (load x i - stats_mean (some x) n) ^ 2)
          * (∑ i in Finset.range n, (load y i - stats_mean (some y) n) ^ 2)
          < 1 / 100000000000000000000)) := by
  have hzero : n = 0 → stats_correlation sqrt (some x) (some y) n = 0 := by
    intro h0
    simp only [stats_correlation]
    rw [if_pos h0]
  refine ⟨fun h => ?_, fun hn h => ?_, hzero, fun hsqrt => ?_⟩
  · rcases Nat.eq_zero_or_pos n with h0 | hn
    · exact hzero h0
    · rw [stats_correlation_eq sqrt x y n hn, if_pos h]
  · rw [stats_correlation_eq sqrt x y n hn, if_neg h]
  · have hp : 0 ≤ (∑ i in Finset.range n, (load x i - stats_mean (some x) n) ^ 2)
        * (∑ i in Finset.range n, (load y i - stats_mean (some y) n) ^ 2) :=
      mul_nonneg (Finset.sum_nonneg (fun i _ => sq_nonneg _))
        (Finset.sum_nonneg (fun i _ => sq_nonneg _))
    rw [sqrt_lt_iff_of_law sqrt hsqrt _ _ hp (by norm_num)]
    norm_num

/-- C13 over the reals with the real square root.  At `x = y = [0, 1/1000]` the square root of
the product of the sums of squared deviations is `1/2000000`, not below `1e-10`, and the
correlation is the quotient of the code, which is 1; at the constant series `x = [1, 1]` with
`y = [1, 2]` the square root is 0 and the correlation is 0. -/
theorem stats_correlation_spec_witness :
    stats_correlation Real.sqrt (some [(0 : ℝ), 1 / 1000]) (some [(0 : ℝ), 1 / 1000]) 2 = 1 ∧
    stats_correlation Real.sqrt (some [(1 : ℝ), 1]) (some [(1 : ℝ), 2]) 2 = 0 := by
  have hmean : stats_mean (some [(0 : ℝ), 1 / 1000]) 2 = 1 / 2000 := by
    rw [stats_mean_sum _ _ (by norm_num)]
    norm_num [Finset.sum_range_succ, load]
  have hsq : Real.sqrt ((∑ i in Finset.range 2,
        (load [(0 : ℝ), 1 / 1000] i - stats_mean (some [(0 : ℝ), 1 / 1000]) 2) ^ 2)
      * (∑ i in Finset.range 2,
        (load [(0 : ℝ), 1 / 1000] i - stats_mean (some [(0 : ℝ), 1 / 1000]) 2) ^ 2))
      = 1 / 2000000 := by
    rw [Real.sqrt_mul_self (Finset.sum_nonneg (fun i _ => sq_nonneg _)), hmean]
    norm_num [Finset.sum_range_succ, load]
  constructor
  · have h := (stats_correlation_spec Real.sqrt [(0 : ℝ), 1 / 1000] [(0 : ℝ), 1 / 1000] 2
      rfl rfl).2.1 (by norm_num) (by rw [hsq]; norm_num)
    rw [h, hsq, hmean]
    norm_num [Finset.sum_range_succ, load]
  · refine (stats_correlation_spec Real.sqrt [(1 : ℝ), 1] [(1 : ℝ), 2] 2 rfl rfl).1 ?_
    have hmean1 : stats_mean (some [(1 : ℝ), 1]) 2 = 1 := by
      rw [stats_mean_sum _ _ (by norm_num)]
      norm_num [Finset.sum_range_succ, load]
    rw [hmean1]
    norm_num [Finset.sum_range_succ, load]

/-- C13 as the claim has it fails at `x = y = [0, 1/1000]`, over the reals with the real square
root: the product of the two sums of squared deviations is `1/4000000000000`, below `1e-10`,
and `stats_correlation` returns 1, not 0. -/
theorem stats_correlation_product_guard_fails :
    (∑ i in Finset.range 2,
        (load [(0 : ℝ), 1 / 1000] i - stats_mean (some [(0 : ℝ), 1 / 1000]) 2) ^ 2)
      * (∑ i in Finset.range 2,
        (load [(0 : ℝ), 1 / 1000] i - stats_mean (some [(0 : ℝ), 1 / 1000]) 2) ^ 2)
      < 1 / 10000000000 ∧
    stats_correlation Real.sqrt (some [(0 : ℝ), 1 / 1000]) (some [(0 : ℝ), 1 / 1000]) 2 = 1 ∧
    stats_correlation Real.sqrt (some [(0 : ℝ), 1 / 1000]) (some [(0 : ℝ), 1 / 1000]) 2 ≠ 0 := by
  have hmean : stats_mean (some [(0 : ℝ), 1 / 1000]) 2 = 1 / 2000 := by
    rw [stats_mean_sum _ _ (by norm_num)]
    norm_num [Finset.sum_range_succ, load]
  have hsq : Real.sqrt ((∑ i in Finset.range 2,
        (load [(0 : ℝ), 1 / 1000] i - stats_mean (some [(0 : ℝ), 1 / 1000]) 2) ^ 2)
      * (∑ i in Finset.range 2,
        (load [(0 : ℝ), 1 / 1000] i - stats_mean (some [(0 : ℝ), 1 / 1000]) 2) ^ 2))
      = 1 / 2000000 := by
    rw [Real.sqrt_mul_self (Finset.sum_nonneg (fun i _ => sq_nonneg _)), hmean]
    norm_num [Finset.sum_range_succ, load]
  have hval : stats_correlation Real.sqrt (some [(0 : ℝ), 1 / 1000])
      (some [(0 : ℝ), 1 / 1000]) 2 = 1 := by
    rw [stats_correlation_eq Real.sqrt _ _ 2 (by norm_num), hsq, if_neg (by norm_num), hmean]
    norm_num [Finset.sum_range_succ, load]
  refine ⟨?_, hval, by rw [hval]; norm_num⟩
  rw [hmean]
  norm_num [Finset.sum_range_succ, load]

/-! ## Transpose of a product -/

/-- Two row-major buffers of `R * C` elements that agree at every `(i, j)` are equal. -/
theorem ext_row_major (R C : Nat) (u t : List α) (hu : u.length = R * C) (ht : t.length = R * C)
    (h : ∀ i, i < R → ∀ j, j < C → u[i * C + j]? = t[i * C + j]?) : u = t := by
  apply List.ext_getElem?
  intro p
  by_cases hp : p < R * C
  · have hC : 0 < C := by
      rcases Nat.eq_zero_or_pos C with h0 | h0
      · rw [h0] at hp; simp at hp
      · exact h0
    have hi : p / C < R := Nat.div_lt_of_lt_mul (by rw [Nat.mul_comm]; exact hp)
    have hj : p % C < C := Nat.mod_lt _ hC
    have hpe : p / C * C + p % C = p := by rw [Nat.mul_comm]; exact Nat.div_add_mod p C
    have := h (p / C) hi (p % C) hj
    rwa [hpe] at this
  · rw [List.getElem?_eq_none (by omega), List.getElem?_eq_none (by omega)]

theorem matrix_transpose_multiply (a b : Matrix α) (ha_mem : a.addressable)
    (hb_mem : b.addressable) (hab : a.cols = b.rows) (halloc : a.rows * b.cols < SIZE_MOD) :
    ∃ t : Matrix α, matrix_transpose (matrix_multiply (some a) (some b)) = some t ∧
      matrix_multiply (matrix_transpose (some b)) (matrix_transpose (some a)) = some t ∧
      t.rows = b.cols ∧ t.cols = a.rows ∧ t.data.length = b.cols * a.rows ∧
      ∀ i, i < a.rows → ∀ j, j < b.cols →
        t.data[j * a.rows + i]? = some (∑ k in Finset.range a.cols, a.elem i k * b.elem k j) := by
  obtain ⟨r, hr, rr, rc, rlen, rel⟩ := matrix_multiply_elems a b ha_mem hb_mem hab halloc
  have r_mem : r.addressable := by rw [Matrix.addressable, rr, rc]; exact halloc
  obtain ⟨t, ht, tr, tc, tlen, tel⟩ := matrix_transpose_elems r r_mem
  obtain ⟨tb, htb, tbr, tbc, tblen, tbel⟩ := matrix_transpose_elems b hb_mem
  obtain ⟨ta, hta, tar, tac, talen, tael⟩ := matrix_transpose_elems a ha_mem
  have tb_mem : tb.addressable := by
    rw [Matrix.addressable, tbr, tbc, Nat.mul_comm]; exact hb_mem
  have ta_mem : ta.addressable := by
    rw [Matrix.addressable, tar, tac, Nat.mul_comm]; exact ha_mem
  have hcompat : tb.cols = ta.rows := by rw [tbc, tar, hab]
  have halloc' : tb.rows * ta.cols < SIZE_MOD := by
    rw [tbr, tac, Nat.mul_comm]; exact halloc
  obtain ⟨u, hu, ur, uc, ulen, uel⟩ := matrix_multiply_elems tb ta tb_mem ta_mem hcompat halloc'
  rw [rr, rc] at tlen tel
  rw [rr] at tc
  rw [rc] at tr
  rw [tbr, tac] at ulen uel
  rw [tbr] at ur
  rw [tac] at uc
  have telem : ∀ i, i < a.rows → ∀ j, j < b.cols →
      t.data[j * a.rows + i]? = some (∑ k in Finset.range a.cols, a.elem i k * b.elem k j) := by
    intro i hi j hj
    rw [tel i hi j hj]
    congr 1
    rw [Matrix.elem, rc]
    exact load_of_getElem? (rel i hi j hj)
  have uelem : ∀ i, i < a.rows → ∀ j, j < b.cols →
      u.data[j * a.rows + i]? = some (∑ k in Finset.range a.cols, a.elem i k * b.elem k j) := by
    intro i hi j hj
    rw [uel j hj i hi, tbc, ← hab]
    congr 1
    refine Finset.sum_congr rfl (fun k hk => ?_)
    have hk' : k < a.cols := Finset.mem_range.mp hk
    have e1 : tb.elem j k = b.elem k j := by
      rw [Matrix.elem, tbc]
      exact load_of_getElem? (tbel k (hab ▸ hk') j hj)
    have e2 : ta.elem k i = a.elem i k := by
      rw [Matrix.elem, tac]
      exact load_of_getElem? (tael i hi k hk')
    rw [e1, e2, mul_comm]
  have hdata : u.data = t.data :=
    ext_row_major b.cols a.rows u.data t.data ulen tlen
      (fun j hj i hi => by rw [uelem i hi j hj, telem i hi j hj])
  have hut : u = t := by
    obtain ⟨ud, urows, ucols⟩ := u
    obtain ⟨td, trows, tcols⟩ := t
    simp only at ur uc tr tc hdata
    rw [ur, uc, tr, tc, hdata]
  refine ⟨t, by rw [hr, ht], by rw [htb, hta, hu, hut], tr, tc, tlen, telem⟩

/-- C20. Transpose reverses products: for matrices `a` and `b` that satisfy the shape invariant
(their element counts being `size_t` values) with `a.cols = b.rows`, when the allocation of the
`a.rows * b.cols` elements succeeds, the transpose of `matrix_multiply (a, b)` and
`matrix_multiply` of the transposes of `b` and `a` are the same matrix: `b.cols` rows, `a.rows`
columns and the same buffer. -/
theorem matrix_transpose_multiply_spec (a b : Matrix α) (ha : a.shape_inv) (hb : b.shape_inv)
    (ha_mem : a.addressable) (hb_mem : b.addressable) (hab : a.cols = b.rows)
    (halloc : a.rows * b.cols < SIZE_MOD) :
    ∃ t : Matrix α, matrix_transpose (matrix_multiply (some a) (some b)) = some t ∧
      matrix_multiply (matrix_transpose (some b)) (matrix_transpose (some a)) = some t ∧
      t.rows = b.cols ∧ t.cols = a.rows ∧ t.shape_inv := by
  obtain ⟨t, h1, h2, hr, hc, hlen, -⟩ := matrix_transpose_multiply a b ha_mem hb_mem hab halloc
  exact ⟨t, h1, h2, hr, hc, by rw [Matrix.shape_inv, hlen, hr, hc]⟩

/-- C20 at `a = [[1,2]]` and `b = [[1,2,3],[4,5,6]]`: the transpose of the product is the
column `[9,12,15]`, and so is the product of the transposes taken in the other order. -/
theorem matrix_transpose_multiply_spec_witness :
    matrix_transpose (matrix_multiply (some (⟨[1, 2], 1, 2⟩ : Matrix ℚ))
        (some ⟨[1, 2, 3, 4, 5, 6], 2, 3⟩)) = some ⟨[9, 12, 15], 3, 1⟩ ∧
    matrix_multiply (matrix_transpose (some (⟨[1, 2, 3, 4, 5, 6], 2, 3⟩ : Matrix ℚ)))
        (matrix_transpose (some ⟨[1, 2], 1, 2⟩)) = some ⟨[9, 12, 15], 3, 1⟩ := by
  obtain ⟨t, h1, h2, -, -, -⟩ := matrix_transpose_multiply_spec (⟨[1, 2], 1, 2⟩ : Matrix ℚ)
    ⟨[1, 2, 3, 4, 5, 6], 2, 3⟩ (by simp [Matrix.shape_inv]) (by simp [Matrix.shape_inv])
    (by simp [Matrix.addressable, SIZE_MOD]) (by simp [Matrix.addressable, SIZE_MOD]) rfl
    (by simp [SIZE_MOD])
  have e : matrix_transpose (matrix_multiply (some (⟨[1, 2], 1, 2⟩ : Matrix ℚ))
      (some ⟨[1, 2, 3, 4, 5, 6], 2, 3⟩)) = some ⟨[9, 12, 15], 3, 1⟩ := by
    simp [matrix_transpose, matrix_multiply, matrix_create, calloc, size_mul, size_add, offset,
      SIZE_MOD, for_range, load, List.range_succ]
    norm_num
  have ht : t = ⟨[9, 12, 15], 3, 1⟩ := Option.some.inj (h1.symm.trans e)
  rw [h1, h2, ht]
  exact ⟨rfl, rfl⟩

/-- The tests of `test_stats_mean` and `test_stats_variance`, by running the functions. -/
theorem stats_mean_variance_example :
    stats_mean (some [(1 : ℚ), 2, 3, 4, 5]) 5 = 3 ∧
    stats_variance (some [(2 : ℚ), 4, 4, 4, 5, 5, 7, 9]) 8 = 4 := by
  constructor
  · norm_num [stats_mean, for_range, load, List.range_succ]
  · norm_num [stats_variance, stats_mean, for_range, load, List.range_succ]

/-! ## Shape invariant, for element counts inside `size_t` -/

theorem matrix_scale_entry (heap : List (Matrix α)) (p : Nat) (m : Matrix α) (scalar : α)
    (hp : heap[p]? = some m) :
    ∃ m' : Matrix α, (matrix_scale heap (some p) scalar)[p]? = some m' ∧
      m'.rows = m.rows ∧ m'.cols = m.cols ∧ m'.data.length = m.data.length := by
  have hplt : p < heap.length := by
    rcases Nat.lt_or_ge p heap.length with h | h
    · exact h
    · rw [List.getElem?_eq_none h] at hp; cases hp
  have hsc : matrix_scale heap (some p) scalar = heap.set p
      { data := for_range (size_mul m.rows m.cols) (fun i d => d.set i (load d i * scalar)) m.data,
        rows := m.rows, cols := m.cols } := by
    simp only [matrix_scale, hp]
  rw [hsc]
  exact ⟨Matrix.mk
      (for_range (size_mul m.rows m.cols) (fun i d => d.set i (load d i * scalar)) m.data)
      m.rows m.cols,
    by simp [hplt], rfl, rfl,
    single_store_length (size_mul m.rows m.cols) (fun i => i) (fun i d => load d i * scalar) m.data⟩

/-- The shape invariant where no element count leaves `size_t`: it holds for the matrix
`matrix_create` returns when `rows * cols` is a `size_t` value, for the results of
`matrix_multiply`, `matrix_add` and `matrix_transpose` on operands that satisfy it when the
element count of the result is a `size_t` value, it is kept by `matrix_scale`, and it holds for
the vectors `vector_create`, `vector_add`, `vector_scale` and `vector_normalize` return, for
every size. -/
theorem shape_inv_of_representable :
    (∀ rows cols : Nat, rows * cols < SIZE_MOD →
      ∃ m : Matrix α, matrix_create rows cols = some m ∧ m.rows = rows ∧ m.cols = cols ∧
        m.shape_inv) ∧
    (∀ a b : Matrix α, a.shape_inv → b.shape_inv → a.addressable → b.addressable →
      a.cols = b.rows → a.rows * b.cols < SIZE_MOD →
      ∃ r : Matrix α, matrix_multiply (some a) (some b) = some r ∧ r.shape_inv) ∧
    (∀ a b : Matrix α, a.shape_inv → b.shape_inv → a.addressable →
      a.rows = b.rows → a.cols = b.cols →
      ∃ r : Matrix α, matrix_add (some a) (some b) = some r ∧ r.shape_inv) ∧
    (∀ m : Matrix α, m.shape_inv → m.addressable →
      ∃ r : Matrix α, matrix_transpose (some m) = some r ∧ r.shape_inv) ∧
    (∀ (heap : List (Matrix α)) (p : Nat) (m : Matrix α) (scalar : α),
      heap[p]? = some m → m.shape_inv →
      ∃ m' : Matrix α, (matrix_scale heap (some p) scalar)[p]? = some m' ∧ m'.shape_inv) ∧
    (∀ size : Nat, ∃ v : Vector α, vector_create size = some v ∧ v.size = size ∧ v.shape_inv) ∧
    (∀ a b : Vector α, a.shape_inv → b.shape_inv → a.size = b.size →
      ∃ r : Vector α, vector_add (some a) (some b) = some r ∧ r.shape_inv) ∧
    (∀ (v : Vector α) (scalar : α), v.shape_inv →
      ∃ r : Vector α, vector_scale (some v) scalar = some r ∧ r.shape_inv) ∧
    (∀ (sqrt : α → α) (v : Vector α) (r : Vector α), v.shape_inv →
      vector_normalize sqrt (some v) = some r → r.shape_inv) := by
  refine ⟨fun rows cols h => ?_, fun a b _ _ ha hb hab h => ?_, fun a b _ _ ha hr hc => ?_,
    fun m _ hm => ?_, fun heap p m scalar hp hm => ?_, fun size => ?_, fun a b _ _ h => ?_,
    fun v scalar _ => ?_, fun sqrt v r _ h => ?_⟩
  · exact ⟨_, matrix_create_eq h, rfl, rfl, by simp [Matrix.shape_inv]⟩
  · obtain ⟨r, hr, rr, rc, rlen, -⟩ := matrix_multiply_elems a b ha hb hab h
    exact ⟨r, hr, by rw [Matrix.shape_inv, rlen, rr, rc]⟩
  · obtain ⟨r, h, rr, rc, rlen, -⟩ := matrix_add_elems a b ha hr hc
    exact ⟨r, h, by rw [Matrix.shape_inv, rlen, rr, rc]⟩
  · obtain ⟨r, h, rr, rc, rlen, -⟩ := matrix_transpose_elems m hm
    exact ⟨r, h, by rw [Matrix.shape_inv, rlen, rr, rc]⟩
  · obtain ⟨m', h, rr, rc, rlen⟩ := matrix_scale_entry heap p m scalar hp
    exact ⟨m', h, by rw [Matrix.shape_inv, rlen, rr, rc]; exact hm⟩
  · exact ⟨_, rfl, rfl, by simp [Vector.shape_inv]⟩
  · obtain ⟨r, hr, hsize, hlen, -⟩ := vector_add_elems a b h
    exact ⟨r, hr, by rw [Vector.shape_inv, hlen, hsize]⟩
  · obtain ⟨r, hr, hsize, hlen, -⟩ := vector_scale_elems v scalar
    exact ⟨r, hr, by rw [Vector.shape_inv, hlen, hsize]⟩
  · obtain ⟨r', hr', hsize, hlen, -⟩ :=
      vector_scale_elems v (1 / vector_magnitude sqrt (some v))
    rw [vector_normalize_eq] at h
    by_cases hmag : vector_magnitude sqrt (some v) < 1 / 10000000000
    · rw [if_pos hmag] at h; cases h
    · rw [if_neg hmag, hr'] at h
      rw [← Option.some.inj h, Vector.shape_inv, hlen, hsize]

/-! ## Range of `stats_correlation` -/

theorem sqrt_zero_of_law (sqrt : α → α)
    (hsqrt : ∀ x, 0 ≤ x → 0 ≤ sqrt x ∧ sqrt x * sqrt x = x) : sqrt 0 = 0 :=
  mul_self_eq_zero.mp (hsqrt 0 (le_refl 0)).2

/-- The mean of a series whose first `n` elements are all equal is that element. -/
theorem stats_mean_const (d : List α) (n : Nat) (hn : 0 < n)
    (hconst : ∀ i, i < n → load d i = load d 0) : stats_mean (some d) n = load d 0 := by
  rw [stats_mean_sum d n hn, Finset.sum_congr rfl (fun i hi => hconst i (Finset.mem_range.mp hi)),
    Finset.sum_const, Finset.card_range, nsmul_eq_mul]
  have hne : (n : α) ≠ 0 := Nat.cast_ne_zero.mpr (Nat.pos_iff_ne_zero.mp hn)
  field_simp

/-- With the non-negative square root the value of `stats_correlation` is between -1 and 1:
the squared sum of products is at most the product of the sums of squares. -/
theorem stats_correlation_abs_le (sqrt : α → α)
    (hsqrt : ∀ x, 0 ≤ x → 0 ≤ sqrt x ∧ sqrt x * sqrt x = x) (x y : List α) (n : Nat) :
    -1 ≤ stats_correlation sqrt (some x) (some y) n ∧
      stats_correlation sqrt (some x) (some y) n ≤ 1 := by
  rcases Nat.eq_zero_or_pos n with h0 | hn
  · have hz : stats_correlation sqrt (some x) (some y) n = 0 := by
      simp only [stats_correlation]
      rw [if_pos h0]
    rw [hz]
    exact ⟨by norm_num, zero_le_one⟩
  · rw [stats_correlation_eq sqrt x y n hn]
    split_ifs with hg
    · exact ⟨by norm_num, zero_le_one⟩
    · have hP : 0 ≤ (∑ i in Finset.range n, (load x i - stats_mean (some x) n) ^ 2)
          * (∑ i in Finset.range n, (load y i - stats_mean (some y) n) ^ 2) :=
        mul_nonneg (Finset.sum_nonneg (fun i _ => sq_nonneg _))
          (Finset.sum_nonneg (fun i _ => sq_nonneg _))
      obtain ⟨-, hD2⟩ := hsqrt _ hP
      have hDpos : 0 < sqrt ((∑ i in Finset.range n, (load x i - stats_mean (some x) n) ^ 2)
          * (∑ i in Finset.range n, (load y i - stats_mean (some y) n) ^ 2)) :=
        lt_of_lt_of_le (by norm_num) (not_lt.mp hg)
      have hCS := Finset.sum_mul_sq_le_sq_mul_sq (Finset.range n)
        (fun i => load x i - stats_mean (some x) n) (fun i => load y i - stats_mean (some y) n)
      have hsq : (∑ i in Finset.range n,
            (load x i - stats_mean (some x) n) * (load y i - stats_mean (some y) n)) ^ 2
          ≤ sqrt ((∑ i in Finset.range n, (load x i - stats_mean (some x) n) ^ 2)
            * (∑ i in Finset.range n, (load y i - stats_mean (some y) n) ^ 2)) ^ 2 := by
        rw [pow_two (sqrt _), hD2]
        exact hCS
      obtain ⟨hlo, hhi⟩ := abs_le_of_sq_le_sq' hsq (le_of_lt hDpos)
      exact ⟨by rw [le_div_iff₀ hDpos]; linarith, by rw [div_le_one hDpos]; exact hhi⟩

/-- With the non-negative square root, a series whose `n > 0` elements are all equal gives the
correlation 0, on either side. -/
theorem stats_correlation_const (sqrt : α → α)
    (hsqrt : ∀ x, 0 ≤ x → 0 ≤ sqrt x ∧ sqrt x * sqrt x = x) (x y : List α) (n : Nat)
    (hn : 0 < n)
    (hconst : (∀ i, i < n → load x i = load x 0) ∨ (∀ i, i < n → load y i = load y 0)) :
    stats_correlation sqrt (some x) (some y) n = 0 := by
  rw [stats_correlation_eq sqrt x y n hn]
  have hzero : (∑ i in Finset.range n, (load x i - stats_mean (some x) n) ^ 2)
      * (∑ i in Finset.range n, (load y i - stats_mean (some y) n) ^ 2) = 0 := by
    rcases hconst with hc | hc
    · have : ∑ i in Finset.range n, (load x i - stats_mean (some x) n) ^ 2 = 0 :=
        Finset.sum_eq_zero (fun i hi => by
          rw [stats_mean_const x n hn hc, hc i (Finset.mem_range.mp hi), sub_self]
          exact zero_pow (by norm_num))
      rw [this, zero_mul]
    · have : ∑ i in Finset.range n, (load y i - stats_mean (some y) n) ^ 2 = 0 :=
        Finset.sum_eq_zero (fun i hi => by
          rw [stats_mean_const y n hn hc, hc i (Finset.mem_range.mp hi), sub_self]
          exact zero_pow (by norm_num))
      rw [this, mul_zero]
  rw [hzero, sqrt_zero_of_law sqrt hsqrt, if_pos (by norm_num)]

/-- C21. Reading the arithmetic over the real numbers (`sqrt` the non-negative square root),
for arrays `x` and `y` of the same length `n` the value of `stats_correlation` lies in the
closed interval from -1 to 1; it is 0 for the empty arrays and 0 when the elements of `x`, or
those of `y`, are all equal. -/
theorem stats_correlation_range (sqrt : α → α)
    (hsqrt : ∀ x, 0 ≤ x → 0 ≤ sqrt x ∧ sqrt x * sqrt x = x) (x y : List α) (n : Nat)
    (hx : x.length = n) (hy : y.length = n) :
    (-1 ≤ stats_correlation sqrt (some x) (some y) n ∧
      stats_correlation sqrt (some x) (some y) n ≤ 1) ∧
    (n = 0 → stats_correlation sqrt (some x) (some y) n = 0) ∧
    ((∀ a, a ∈ x → ∀ b, b ∈ x → a = b) → stats_correlation sqrt (some x) (some y) n = 0) ∧
    ((∀ a, a ∈ y → ∀ b, b ∈ y → a = b) → stats_correlation sqrt (some x) (some y) n = 0) := by
  have hzero : n = 0 → stats_correlation sqrt (some x) (some y) n = 0 := by
    intro h0
    simp only [stats_correlation]
    rw [if_pos h0]
  have hload : ∀ (d : List α), d.length = n → (∀ a, a ∈ d → ∀ b, b ∈ d → a = b) →
      ∀ i, i < n → load d i = load d 0 := by
    intro d hd hall i hi
    exact hall _ (mem_iff_load.mpr ⟨i, by omega, rfl⟩) _ (mem_iff_load.mpr ⟨0, by omega, rfl⟩)
  refine ⟨stats_correlation_abs_le sqrt hsqrt x y n, hzero, fun hc => ?_, fun hc => ?_⟩
  · rcases Nat.eq_zero_or_pos n with h0 | hn
    · exact hzero h0
    · exact stats_correlation_const sqrt hsqrt x y n hn (Or.inl (hload x hx hc))
  · rcases Nat.eq_zero_or_pos n with h0 | hn
    · exact hzero h0
    · exact stats_correlation_const sqrt hsqrt x y n hn (Or.inr (hload y hy hc))

/-- C21 over the reals with the real square root, at `x = [1, 2, 4]` and `y = [3, 1, 2]`. -/
theorem stats_correlation_range_witness :
    -1 ≤ stats_correlation Real.sqrt (some [(1 : ℝ), 2, 4]) (some [(3 : ℝ), 1, 2]) 3 ∧
      stats_correlation Real.sqrt (some [(1 : ℝ), 2, 4]) (some [(3 : ℝ), 1, 2]) 3 ≤ 1 :=
  (stats_correlation_range Real.sqrt (fun x hx => ⟨Real.sqrt_nonneg x, Real.mul_self_sqrt hx⟩)
    [(1 : ℝ), 2, 4] [(3 : ℝ), 1, 2] 3 rfl rfl).1

/-! ## Transpose involution on doubles with infinities and NaN -/

theorem load_is_finite (d : List ExtDouble) (h : ∀ x, x ∈ d → x.is_finite) (k : Nat) :
    (load d k).is_finite := by
  rcases Nat.lt_or_ge k d.length with hk | hk
  · have e := getElem?_eq_load hk
    rw [List.getElem?_eq_getElem hk] at e
    rw [← Option.some.inj e]
    exact h _ (List.getElem_mem hk)
  · have e : load d k = 0 := by
      simp [load, List.getD_eq_getElem?_getD, List.getElem?_eq_none hk]
    rw [e]
    exact True.intro

/-- A finite double compares equal to itself within every tolerance above zero. -/
theorem utils_double_equal_self_finite (x epsilon : ExtDouble) (hx : x.is_finite)
    (heps : 0 < epsilon) : utils_double_equal x x epsilon = true := by
  cases x with
  | finite q =>
    have hsub : (ExtDouble.finite q - ExtDouble.finite q : ExtDouble) = 0 := by
      show ExtDouble.sub (ExtDouble.finite q) (ExtDouble.finite q) = ExtDouble.finite 0
      simp [ExtDouble.sub]
    have hnot : ¬ ((0 : ExtDouble) < 0) := by
      show ¬ (ExtDouble.lt (ExtDouble.finite 0) (ExtDouble.finite 0) = true)
      simp [ExtDouble.lt]
    simp only [utils_double_equal, utils_abs, hsub, if_neg hnot, decide_eq_true_eq]
    exact heps
  | pos_inf => exact absurd hx (fun h => h)
  | neg_inf => exact absurd hx (fun h => h)
  | nan => exact absurd hx (fun h => h)

theorem matrix_equal_self_finite (m : Matrix ExtDouble) (epsilon : ExtDouble)
    (hfin : ∀ x, x ∈ m.data → x.is_finite) (heps : 0 < epsilon) :
    matrix_equal (some m) (some m) epsilon = true := by
  simp only [matrix_equal]
  rw [if_neg (by simp), List.all_eq_true]
  intro i _
  exact utils_double_equal_self_finite _ _ (load_is_finite m.data hfin i) heps

/-- C4 as the code has it.  For a matrix `m` of doubles, infinities and NaN included, that
satisfies the shape invariant (its element count being a `size_t` value), transposing twice
gives back `m` itself, rows, columns and buffer; and when every entry of `m` is finite,
`matrix_equal` accepts the twice-transposed matrix against `m` for every tolerance
`epsilon > 0`. -/
theorem matrix_transpose_involution_finite (m : Matrix ExtDouble) (epsilon : ExtDouble)
    (hm : m.shape_inv) (hm_mem : m.addressable) (heps : 0 < epsilon) :
    matrix_transpose (matrix_transpose (some m)) = some m ∧
      ((∀ x, x ∈ m.data → x.is_finite) →
        matrix_equal (matrix_transpose (matrix_transpose (some m))) (some m) epsilon = true) := by
  refine ⟨matrix_transpose_transpose m hm hm_mem, fun hfin => ?_⟩
  rw [matrix_transpose_transpose m hm hm_mem]
  exact matrix_equal_self_finite m epsilon hfin heps

/-- C4 at the matrix `[[1,2,3],[4,5,6]]` of finite doubles with tolerance `1/1000000`. -/
theorem matrix_transpose_involution_finite_witness :
    matrix_transpose (matrix_transpose (some (⟨[ExtDouble.finite 1, ExtDouble.finite 2,
        ExtDouble.finite 3, ExtDouble.finite 4, ExtDouble.finite 5, ExtDouble.finite 6], 2, 3⟩ :
        Matrix ExtDouble)))
      = some ⟨[ExtDouble.finite 1, ExtDouble.finite 2, ExtDouble.finite 3, ExtDouble.finite 4,
        ExtDouble.finite 5, ExtDouble.finite 6], 2, 3⟩ ∧
    matrix_equal (matrix_transpose (matrix_transpose (some (⟨[ExtDouble.finite 1,
        ExtDouble.finite 2, ExtDouble.finite 3, ExtDouble.finite 4, ExtDouble.finite 5,
        ExtDouble.finite 6], 2, 3⟩ : Matrix ExtDouble))))
      (some ⟨[ExtDouble.finite 1, ExtDouble.finite 2, ExtDouble.finite 3, ExtDouble.finite 4,
        ExtDouble.finite 5, ExtDouble.finite 6], 2, 3⟩) (ExtDouble.finite (1 / 1000000)) = true := by
  have h := matrix_transpose_involution_finite
    ⟨[ExtDouble.finite 1, ExtDouble.finite 2, ExtDouble.finite 3, ExtDouble.finite 4,
      ExtDouble.finite 5, ExtDouble.finite 6], 2, 3⟩ (ExtDouble.finite (1 / 1000000))
    (by simp [Matrix.shape_inv]) (by simp [Matrix.addressable, SIZE_MOD])
    (by show ExtDouble.lt (ExtDouble.finite 0) (ExtDouble.finite (1 / 1000000)) = true
        simp [ExtDouble.lt])
  refine ⟨h.1, h.2 ?_⟩
  intro x hx
  simp only [List.mem_cons, List.mem_singleton, List.not_mem_nil, or_false] at hx
  rcases hx with h | h | h | h | h | h <;> rw [h] <;> exact True.intro

/-- C4 as the claim has it fails at the `1 x 1` matrix holding `+inf`, with tolerance
`1/1000000`: the matrix satisfies the shape invariant, the tolerance is above zero, transposing
twice gives the matrix back, and `matrix_equal` rejects it, because `inf - inf` is NaN and NaN
is not below the tolerance. -/
theorem matrix_transpose_involution_fails_at_infinity :
    (⟨[ExtDouble.pos_inf], 1, 1⟩ : Matrix ExtDouble).shape_inv ∧
    (0 : ExtDouble) < ExtDouble.finite (1 / 1000000) ∧
    matrix_transpose (matrix_transpose (some (⟨[ExtDouble.pos_inf], 1, 1⟩ : Matrix ExtDouble)))
      = some ⟨[ExtDouble.pos_inf], 1, 1⟩ ∧
    matrix_equal (matrix_transpose (matrix_transpose
        (some (⟨[ExtDouble.pos_inf], 1, 1⟩ : Matrix ExtDouble))))
      (some ⟨[ExtDouble.pos_inf], 1, 1⟩) (ExtDouble.finite (1 / 1000000)) = false ∧
    utils_double_equal ExtDouble.pos_inf ExtDouble.pos_inf (ExtDouble.finite (1 / 1000000))
      = false := by
  refine ⟨rfl, ?_, rfl, rfl, rfl⟩
  show ExtDouble.lt (ExtDouble.finite 0) (ExtDouble.finite (1 / 1000000)) = true
  simp [ExtDouble.lt]

end NumLib
